import Mathlib

set_option maxRecDepth 10000
set_option maxHeartbeats 2000000

/-!
Verification development for the generative-agents cognition engine
(reverie-ts).  The definitions below are a shallow embedding of the
TypeScript source: matrices become functions over naturals, JS `Map` /
plain-object dictionaries become association lists with JS insertion
semantics, `Date` values become integer epoch seconds, floating point
scores become rationals, and the external services (embedding API,
`Math.sqrt`, `Math.random`, the LLM oracle) become explicit function
parameters.  Fallible code returns `Except`/`Option`.
-/

namespace GenAgents

/-! ## Generic helpers: association lists with JS `Map`/object semantics -/

/-- JS `Map.set` / object key assignment: update the value in place when the
key exists (keeping its position in insertion order), append otherwise. -/
def mapSet {α : Type} (m : List (String × α)) (k : String) (v : α) :
    List (String × α) :=
  if (m.lookup k).isSome then
    m.map (fun p => if p.1 = k then (k, v) else p)
  else
    m ++ [(k, v)]

/-- JS `String.prototype.includes`: substring containment on the character
sequence, stated through `List.IsInfix` so that it evaluates in the
kernel. -/
def str_includes (s sub : String) : Bool := decide (sub.toList <:+: s.toList)

/-- The insertion step of the stable sort: `x` goes in front of the first
element `y` with `le x y`. -/
def sort_insert {α : Type} (le : α → α → Bool) (x : α) : List α → List α
  | [] => [x]
  | y :: ys => if le x y then x :: y :: ys else y :: sort_insert le x ys

/-- A stable sort (insertion sort), the embedding of the JS stable
`Array.prototype.sort`: with a consistent comparator a stable sort's output
is uniquely determined (sorted, ties in original order), so any stable sort
reproduces the source's output.  It is structurally recursive so that it
evaluates in the kernel. -/
def stable_sort {α : Type} (le : α → α → Bool) (l : List α) : List α :=
  l.foldr (sort_insert le) []

/-! ## PathFinder (src/reverie-ts/src/backend_server/path_finder.ts)

The matrices of `path_finder_v2` (the converted collision maze `a` and the
distance matrix `m`) are embedded as `List (List Nat)`, mirroring the JS
`number[][]` arrays.  Every access the source performs is bounds-checked
first, so the defaults of `getCell` are never consulted. -/

/-- A matrix as a list of rows, the embedding of a JS `number[][]`. -/
abbrev Mat := List (List Nat)

/-- Matrix read `m[i][j]`; out-of-range reads default to 0 (the source only
reads in bounds). -/
def getCell (m : Mat) (i j : Nat) : Nat :=
  (m.getD i []).getD j 0

/-- Matrix write `m[i][j] = v` (a no-op out of range; the source only writes
in bounds). -/
def setCell (m : Mat) (i j v : Nat) : Mat :=
  m.set i ((m.getD i []).set j v)

/-- Processing of one cell `(i, j)` inside `make_step`: if the cell carries
the current wave value `k`, write `k+1` into each of the four bounds-checked,
unvisited, non-colliding neighbours, in the source's order
(up, left, down, right).  The writes are sequential, as in the source. -/
def make_step_cell (a : Mat) (k : Nat) (m : Mat) (i j : Nat) : Mat :=
  if getCell m i j = k then
    let m1 := if 0 < i ∧ getCell m (i-1) j = 0 ∧ getCell a (i-1) j = 0 then
        setCell m (i-1) j (k+1) else m
    let m2 := if 0 < j ∧ getCell m1 i (j-1) = 0 ∧ getCell a i (j-1) = 0 then
        setCell m1 i (j-1) (k+1) else m1
    let m3 := if i < m2.length - 1 ∧ getCell m2 (i+1) j = 0 ∧ getCell a (i+1) j = 0 then
        setCell m2 (i+1) j (k+1) else m2
    let m4 := if j < (m3.getD i []).length - 1 ∧ getCell m3 i (j+1) = 0 ∧ getCell a i (j+1) = 0 then
        setCell m3 i (j+1) (k+1) else m3
    m4
  else m

/-- One expansion round of the wave (`make_step` in the source): a row-major
scan of the whole matrix.  Writes never change the shape of `m`, so scanning
over the initial lengths coincides with the source's loop bounds. -/
def make_step (a : Mat) (k : Nat) (m : Mat) : Mat :=
  (List.range m.length).foldl
    (fun acc i =>
      (List.range ((m.getD i []).length)).foldl
        (fun acc j => make_step_cell a k acc i j) acc)
    m

/-- The wave-propagation loop of `path_finder_v2`.  The source runs
`while (m[end] === 0) { k += 1; make_step(m, k); if (except_handle === 0) break;
except_handle -= 1; }` with `except_handle = 150`; `fuel` plays the role of
`except_handle`, so at most 151 expansion rounds are performed. -/
def wave_loop (a : Mat) (ei ej : Nat) : Nat → Nat → Mat → Mat
  | fuel, k, m =>
    if getCell m ei ej ≠ 0 then m
    else
      match fuel with
      | 0 => make_step a (k+1) m
      | f+1 => wave_loop a ei ej f (k+1) (make_step a (k+1) m)

/-- The backtracking loop of `path_finder_v2`, walking from the end cell to a
neighbour one distance-layer lower, checking directions in the fixed priority
order up, left, down, right.  The `k` argument is the distance value at the
current cell.  When no neighbour carries `k-1` the source loops forever; that
situation is unreachable for matrices produced by the wave, and the embedding
returns the path accumulated so far. -/
def backtrack (m : Mat) :
    Nat → Nat × Nat → List (Nat × Nat) → List (Nat × Nat)
  | 0, _, path => path
  | 1, _, path => path
  | k+2, (ci, cj), path =>
    if 0 < ci ∧ getCell m (ci-1) cj = k+1 then
      backtrack m (k+1) (ci-1, cj) (path ++ [(ci-1, cj)])
    else if 0 < cj ∧ getCell m ci (cj-1) = k+1 then
      backtrack m (k+1) (ci, cj-1) (path ++ [(ci, cj-1)])
    else if ci < m.length - 1 ∧ getCell m (ci+1) cj = k+1 then
      backtrack m (k+1) (ci+1, cj) (path ++ [(ci+1, cj)])
    else if cj < (m.getD ci []).length - 1 ∧ getCell m ci (cj+1) = k+1 then
      backtrack m (k+1) (ci, cj+1) (path ++ [(ci, cj+1)])
    else path

/-- Conversion of the input grid into the 0/1 collision matrix (`new_maze`
in the source): 1 where a cell equals the collision marker, 0 otherwise. -/
def to_collision (grid : List (List Nat)) (c : Nat) : Mat :=
  grid.map (fun row => row.map (fun cell => if cell = c then 1 else 0))

/-- Initial distance matrix: zeros of the same shape as the collision maze,
with 1 written at the start cell. -/
def init_m (a : Mat) (start : Nat × Nat) : Mat :=
  setCell (a.map (fun row => row.map (fun _ => 0))) start.1 start.2 1

/-- The final distance matrix computed by `path_finder_v2`'s wave loop. -/
def wave_matrix (grid : List (List Nat)) (start endc : Nat × Nat) (c : Nat) :
    Mat :=
  let a := to_collision grid c
  wave_loop a endc.1 endc.2 150 0 (init_m a start)

/-- `path_finder_v2`: wave propagation from `start`, then backtracking from
`endc`, in (row, col) coordinates.  The source pushes cells onto `the_path`
starting from the end cell and reverses at the end. -/
def path_finder_v2 (grid : List (List Nat)) (start endc : Nat × Nat)
    (c : Nat) : List (Nat × Nat) :=
  let m := wave_matrix grid start endc c
  let k := getCell m endc.1 endc.2
  (backtrack m k endc [(endc.1, endc.2)]).reverse

/-- `path_finder`: the public interface.  It accepts (x, y) coordinates,
swaps them into (row, col) on entry ("EMERGENCY PATCH" in the source) and
swaps each step of the result back on exit. -/
def path_finder (maze : List (List Nat)) (start endc : Nat × Nat) (c : Nat) :
    List (Nat × Nat) :=
  (path_finder_v2 maze (start.2, start.1) (endc.2, endc.1) c).map
    (fun q => (q.2, q.1))

/-! ## AssociativeMemory
(src/reverie-ts/src/backend_server/persona/memory_structures/associative_memory.ts)

`Date` values are embedded as integer epoch seconds, JS `number` scores as
rationals, and every `Map` as an association list with `Map` insertion
semantics (`mapSet`). -/

/-- The variant tag of a memory node. -/
inductive NodeType where
  | event
  | thought
  | chat
deriving DecidableEq, Repr

/-- A `ConceptNode`, the atomic memory unit. -/
structure ConceptNode where
  node_id : String
  node_count : Nat
  type_count : Nat
  node_type : NodeType
  depth : Nat
  created : Int
  expiration : Option Int
  last_accessed : Int
  subject : String
  predicate : String
  object : String
  description : String
  embedding_key : String
  poignancy : ℚ
  keywords : List String
  filling : Option (List String)
deriving DecidableEq, Repr

/-- The associative-memory store.  Sequences are most-recent-first (the adds
prepend); the keyword indexes and strength counters are keyed by lower-cased
keyword. -/
structure AssociativeMemory where
  id_to_node : List (String × ConceptNode)
  seq_event : List ConceptNode
  seq_thought : List ConceptNode
  seq_chat : List ConceptNode
  kw_to_event : List (String × List ConceptNode)
  kw_to_thought : List (String × List ConceptNode)
  kw_to_chat : List (String × List ConceptNode)
  kw_strength_event : List (String × Nat)
  kw_strength_thought : List (String × Nat)
  embeddings : List (String × List ℚ)
deriving DecidableEq

/-- The event-only description cleanup in `add_event`: when the description
contains a parenthetical, replace it with the first three space-separated
words followed by the content after the last opening parenthesis with its
final character removed. -/
def clean_event_description (description : String) : String :=
  if str_includes description "(" then
    String.intercalate " " ((description.splitOn " ").take 3) ++ " " ++
      (((description.splitOn "(").getLastD "").dropRight 1)
  else description

/-- Keyword-index update common to the three adds: for each lower-cased
keyword, prepend the node to the keyword's list, creating the entry if
absent. -/
def kwIndexAdd (idx : List (String × List ConceptNode)) (node : ConceptNode)
    (kws : List String) : List (String × List ConceptNode) :=
  kws.foldl
    (fun idx kw =>
      match idx.lookup kw with
      | some l => mapSet idx kw (node :: l)
      | none => idx ++ [(kw, [node])])
    idx

/-- Keyword-strength update (events and thoughts only): increment each
keyword's counter, creating it at 1, but only when the predicate+object is
not "is idle". -/
def kwStrengthAdd (str : List (String × Nat)) (p o : String)
    (kws : List String) : List (String × Nat) :=
  if p ++ " " ++ o ≠ "is idle" then
    kws.foldl
      (fun str kw =>
        match str.lookup kw with
        | some n => mapSet str kw (n + 1)
        | none => str ++ [(kw, 1)])
      str
  else str

/-- `add_event`: allocate the next global and per-type ids, clean the
description, build the event node with depth 0, prepend it to `seq_event`,
index it, register keyword strength, and store the embedding.  Returns the
updated memory and the created node, which the source returns. -/
def add_event (mem : AssociativeMemory) (created : Int)
    (expiration : Option Int) (s p o description : String)
    (keywords : List String) (poignancy : ℚ)
    (embedding_pair : String × List ℚ) (filling : Option (List String)) :
    AssociativeMemory × ConceptNode :=
  let node_count := mem.id_to_node.length + 1
  let type_count := mem.seq_event.length + 1
  let node_id := "node_" ++ toString node_count
  let node : ConceptNode :=
    { node_id := node_id, node_count := node_count, type_count := type_count
      node_type := NodeType.event, depth := 0, created := created
      expiration := expiration, last_accessed := created
      subject := s, predicate := p, object := o
      description := clean_event_description description
      embedding_key := embedding_pair.1, poignancy := poignancy
      keywords := keywords, filling := filling }
  let keywords_lower := keywords.map (fun i => i.toLower)
  ({ mem with
      seq_event := node :: mem.seq_event
      kw_to_event := kwIndexAdd mem.kw_to_event node keywords_lower
      id_to_node := mapSet mem.id_to_node node_id node
      kw_strength_event := kwStrengthAdd mem.kw_strength_event p o keywords_lower
      embeddings := mapSet mem.embeddings embedding_pair.1 embedding_pair.2 },
    node)

/-- The depth computation of `add_thought`: default 1; with a non-empty
evidence list whose ids all resolve in `id_to_node`, one plus the maximum
evidence depth.  A failed lookup raises in the source and is caught, keeping
the default. -/
def thought_depth (mem : AssociativeMemory) (filling : Option (List String)) :
    Nat :=
  match filling with
  | none => 1
  | some ids =>
    if ids.isEmpty then 1
    else
      match ids.mapM (fun i => mem.id_to_node.lookup i) with
      | some ns => (ns.map (fun n => n.depth)).foldl max 0 + 1
      | none => 1

/-- `add_thought`: like `add_event` but with the computed thought depth, no
description cleanup, and the thought-side sequence/index/strength. -/
def add_thought (mem : AssociativeMemory) (created : Int)
    (expiration : Option Int) (s p o description : String)
    (keywords : List String) (poignancy : ℚ)
    (embedding_pair : String × List ℚ) (filling : Option (List String)) :
    AssociativeMemory × ConceptNode :=
  let node_count := mem.id_to_node.length + 1
  let type_count := mem.seq_thought.length + 1
  let node_id := "node_" ++ toString node_count
  let node : ConceptNode :=
    { node_id := node_id, node_count := node_count, type_count := type_count
      node_type := NodeType.thought, depth := thought_depth mem filling
      created := created, expiration := expiration, last_accessed := created
      subject := s, predicate := p, object := o, description := description
      embedding_key := embedding_pair.1, poignancy := poignancy
      keywords := keywords, filling := filling }
  let keywords_lower := keywords.map (fun i => i.toLower)
  ({ mem with
      seq_thought := node :: mem.seq_thought
      kw_to_thought := kwIndexAdd mem.kw_to_thought node keywords_lower
      id_to_node := mapSet mem.id_to_node node_id node
      kw_strength_thought := kwStrengthAdd mem.kw_strength_thought p o keywords_lower
      embeddings := mapSet mem.embeddings embedding_pair.1 embedding_pair.2 },
    node)

/-- `add_chat`: depth 0, no description cleanup, no strength counter. -/
def add_chat (mem : AssociativeMemory) (created : Int)
    (expiration : Option Int) (s p o description : String)
    (keywords : List String) (poignancy : ℚ)
    (embedding_pair : String × List ℚ) (filling : Option (List String)) :
    AssociativeMemory × ConceptNode :=
  let node_count := mem.id_to_node.length + 1
  let type_count := mem.seq_chat.length + 1
  let node_id := "node_" ++ toString node_count
  let node : ConceptNode :=
    { node_id := node_id, node_count := node_count, type_count := type_count
      node_type := NodeType.chat, depth := 0, created := created
      expiration := expiration, last_accessed := created
      subject := s, predicate := p, object := o, description := description
      embedding_key := embedding_pair.1, poignancy := poignancy
      keywords := keywords, filling := filling }
  let keywords_lower := keywords.map (fun i => i.toLower)
  ({ mem with
      seq_chat := node :: mem.seq_chat
      kw_to_chat := kwIndexAdd mem.kw_to_chat node keywords_lower
      id_to_node := mapSet mem.id_to_node node_id node
      embeddings := mapSet mem.embeddings embedding_pair.1 embedding_pair.2 },
    node)

/-! ## Scratch (short-term memory; src/unnamed scratch.ts)

Only the fields the verified operations read are embedded. -/

/-- The persona's working state. -/
structure Scratch where
  curr_time : Int
  recency_w : ℚ
  relevance_w : ℚ
  importance_w : ℚ
  recency_decay : ℚ
  f_daily_schedule : List (String × Int)
  act_address : Option String
  act_start_time : Option Int
  act_duration : Option Int
  chatting_with : Option String
  chatting_end_time : Option Int
deriving DecidableEq

/-- A persona: its scratch space and its associative memory. -/
structure Persona where
  scratch : Scratch
  a_mem : AssociativeMemory
deriving DecidableEq

/-! ## Retrieval scoring
(src/reverie-ts/src/backend_server/persona/cognitive_modules/retrieve.ts)

Score dictionaries (`Record<string, number>`) are association lists built
with JS object-assignment semantics.  `Math.sqrt` is not exactly
representable over the rationals and is passed in as a function parameter
`sqrtQ`; likewise the external embedding service is a parameter. -/

/-- A score dictionary keyed by node id. -/
abbrev RDict := List (String × ℚ)

/-- `cos_sim`: cosine similarity.  Mismatched lengths throw; a zero norm
(as reported by the square-root function) yields 0. -/
def cos_sim (sqrtQ : ℚ → ℚ) (a b : List ℚ) : Except String ℚ :=
  if a.length ≠ b.length then
    Except.error "Vectors must have the same length"
  else
    let dotProduct := (a.zip b).foldl (fun s p => s + p.1 * p.2) 0
    let normA := sqrtQ (a.foldl (fun s v => s + v * v) 0)
    let normB := sqrtQ (b.foldl (fun s v => s + v * v) 0)
    if normA = 0 ∨ normB = 0 then Except.ok 0
    else Except.ok (dotProduct / (normA * normB))

/-- `normalize_dict_floats`: min-max rescaling of the dictionary values into
`[target_min, target_max]`; when all values are equal every key maps to
`(target_max - target_min) / 2`.  (For the empty dictionary the source's
`Math.min()/Math.max()` over an empty spread produce infinities and the
rescaling loop runs zero times, so the result is empty.) -/
def normalize_dict_floats (d : RDict) (target_min target_max : ℚ) : RDict :=
  match d.map (fun p => p.2) with
  | [] => []
  | v :: vs =>
    let min_val := vs.foldl min v
    let max_val := vs.foldl max v
    let range_val := max_val - min_val
    if range_val = 0 then
      d.map (fun p => (p.1, (target_max - target_min) / 2))
    else
      d.map (fun p =>
        (p.1, (p.2 - min_val) * (target_max - target_min) / range_val + target_min))

/-- `top_highest_x_values`: sort the entries descending by value (JS
`Array.prototype.sort` is stable, hence `mergeSort`) and keep the first `x`. -/
def top_highest_x_values (d : RDict) (x : Nat) : RDict :=
  (stable_sort (fun a b : String × ℚ => decide (b.2 ≤ a.2)) d).take x

/-- `extract_recency`: the node at index `i` of the list (which
`new_retrieve` sorts ascending by last-accessed time) receives
`recency_decay ^ (i + 1)`. -/
def extract_recency (persona : Persona) (nodes : List ConceptNode) : RDict :=
  nodes.enum.foldl
    (fun d p => mapSet d p.2.node_id (persona.scratch.recency_decay ^ (p.1 + 1)))
    []

/-- `extract_importance`: each node's raw poignancy. -/
def extract_importance (nodes : List ConceptNode) : RDict :=
  nodes.foldl (fun d n => mapSet d n.node_id n.poignancy) []

/-- `extract_relevance`: cosine similarity between each node's stored
embedding and the focal point's embedding; nodes without a stored embedding
score 0. -/
def extract_relevance (sqrtQ : ℚ → ℚ) (mem : AssociativeMemory)
    (nodes : List ConceptNode) (focal_embedding : List ℚ) :
    Except String RDict :=
  nodes.foldlM
    (fun d n =>
      match mem.embeddings.lookup n.embedding_key with
      | some emb => do
        let c ← cos_sim sqrtQ emb focal_embedding
        pure (mapSet d n.node_id c)
      | none => pure (mapSet d n.node_id 0))
    []

/-- The candidate gathering and sorting step of `new_retrieve`: all events
then all thoughts whose embedding key does not contain "idle", paired with
their last-accessed times, sorted ascending by that time (JS sort is
stable), then stripped of the time component. -/
def candidate_nodes (mem : AssociativeMemory) : List ConceptNode :=
  let nodes : List (Int × ConceptNode) :=
    (mem.seq_event.filter
        (fun e => ¬ (str_includes e.embedding_key "idle"))).map
      (fun e => (e.last_accessed, e))
    ++ (mem.seq_thought.filter
        (fun t => ¬ (str_includes t.embedding_key "idle"))).map
      (fun t => (t.last_accessed, t))
  (stable_sort (fun a b : Int × ConceptNode => decide (a.1 ≤ b.1)) nodes).map
    (fun p => p.2)

/-- The aliasing model of `node.last_accessed = time`: in the source all
indexes share one node object, so the update is visible through every
copy the store holds. -/
def touch_node (n : ConceptNode) (i : String) (t : Int) : ConceptNode :=
  if n.node_id = i then { n with last_accessed := t } else n

/-- Update `last_accessed` of the node with the given id everywhere it is
stored. -/
def touch_memory (mem : AssociativeMemory) (i : String) (t : Int) :
    AssociativeMemory :=
  { mem with
    id_to_node := mem.id_to_node.map (fun p => (p.1, touch_node p.2 i t))
    seq_event := mem.seq_event.map (fun n => touch_node n i t)
    seq_thought := mem.seq_thought.map (fun n => touch_node n i t)
    seq_chat := mem.seq_chat.map (fun n => touch_node n i t)
    kw_to_event := mem.kw_to_event.map
      (fun p => (p.1, p.2.map (fun n => touch_node n i t)))
    kw_to_thought := mem.kw_to_thought.map
      (fun p => (p.1, p.2.map (fun n => touch_node n i t)))
    kw_to_chat := mem.kw_to_chat.map
      (fun p => (p.1, p.2.map (fun n => touch_node n i t))) }

/-- Specification-side view of repeated touching: update `last_accessed`
when the node's id belongs to the given id set, leave the node alone
otherwise. -/
def touch_if (ids : List String) (t : Int) (n : ConceptNode) : ConceptNode :=
  if n.node_id ∈ ids then { n with last_accessed := t } else n

/-- The final loop of `new_retrieve`: translate the selected ids back into
nodes, setting each found node's `last_accessed` to the current simulated
time (the side effect) and collecting it. -/
def select_nodes (curr_time : Int) :
    List String → AssociativeMemory → List ConceptNode →
    AssociativeMemory × List ConceptNode
  | [], mem, acc => (mem, acc)
  | key :: rest, mem, acc =>
    match mem.id_to_node.lookup key with
    | some node =>
      select_nodes curr_time rest (touch_memory mem node.node_id curr_time)
        (acc ++ [{ node with last_accessed := curr_time }])
    | none => select_nodes curr_time rest mem acc

/-- The body of `new_retrieve` for one focal point: gather and sort the
candidates, compute and normalize the three score dictionaries, combine them
with the fixed global weights `[0.5, 3, 2]` and the persona's weights, rank,
take the top `n_count`, and touch every node returned. -/
def new_retrieve_focal (get_embedding : String → List ℚ) (sqrtQ : ℚ → ℚ)
    (persona : Persona) (focal_pt : String) (n_count : Nat) :
    Except String (Persona × List ConceptNode) := do
  let sortedNodes := candidate_nodes persona.a_mem
  let recency_out_normalized :=
    normalize_dict_floats (extract_recency persona sortedNodes) 0 1
  let importance_out_normalized :=
    normalize_dict_floats (extract_importance sortedNodes) 0 1
  let relevance_out ←
    extract_relevance sqrtQ persona.a_mem sortedNodes (get_embedding focal_pt)
  let relevance_out_normalized := normalize_dict_floats relevance_out 0 1
  let master_out : RDict :=
    (recency_out_normalized.map (fun p => p.1)).foldl
      (fun d key =>
        mapSet d key
          (persona.scratch.recency_w
              * ((recency_out_normalized.lookup key).getD 0) * (1/2)
            + persona.scratch.relevance_w
              * ((relevance_out_normalized.lookup key).getD 0) * 3
            + persona.scratch.importance_w
              * ((importance_out_normalized.lookup key).getD 0) * 2))
      []
  let master_out_sorted := top_highest_x_values master_out master_out.length
  let master_out_top := top_highest_x_values master_out_sorted n_count
  let sel :=
    select_nodes persona.scratch.curr_time (master_out_top.map (fun p => p.1))
      persona.a_mem []
  pure ({ persona with a_mem := sel.1 }, sel.2)

/-- `new_retrieve`: iterate `new_retrieve_focal` over the focal points,
threading the persona (whose memory the touch step mutates) and storing the
nodes of each pass under its focal point with the JS object write
`retrieved[focal_pt] = master_nodes` — so a repeated focal point overwrites
the list an earlier pass stored under the same key. -/
def new_retrieve (get_embedding : String → List ℚ) (sqrtQ : ℚ → ℚ)
    (persona : Persona) (focal_points : List String) (n_count : Nat) :
    Except String (Persona × List (String × List ConceptNode)) :=
  focal_points.foldlM
    (fun st focal_pt => do
      let r ← new_retrieve_focal get_embedding sqrtQ st.1 focal_pt n_count
      pure (r.1, mapSet st.2 focal_pt r.2))
    ((persona, []) : Persona × List (String × List ConceptNode))

/-! ## Action lifecycle checks (scratch.ts)

`toLocaleTimeString('en-US', { hour12: false })` renders only the hour,
minute and second of the day; the rendering is injective in that triple, so
comparing the two strings is comparing the triples.  Times are modelled in
UTC (real timezone offsets are whole minutes and apply to both operands
alike). -/

/-- The (hour, minute, second) triple a `Date` renders as a time string.
`Int.emod` is non-negative here, matching calendar rendering also for
pre-epoch instants. -/
def time_of_day (t : Int) : Nat × Nat × Nat :=
  let d := (t % 86400).toNat
  (d / 3600, (d % 3600) / 60, d % 60)

/-- The start-time rounding in `act_check_finished`: when the seconds are
nonzero, zero them and advance one minute. -/
def round_up_minute (t : Int) : Int :=
  if t % 60 ≠ 0 then t - t % 60 + 60 else t

/-- The action's end time: the chat end time while chatting, otherwise the
rounded-up start time plus the duration in minutes (`act_duration || 0`
treats a missing duration as 0).  `none` models the runtime error the
source's non-null assertions would raise. -/
def act_end_time (s : Scratch) : Option Int :=
  if s.chatting_with.isSome then s.chatting_end_time
  else s.act_start_time.map
    (fun st => round_up_minute st + (s.act_duration.getD 0) * 60)

/-- `act_check_finished`: true with no current action; otherwise compare the
rendered time of day of the current time with that of the end time. -/
def act_check_finished (s : Scratch) : Option Bool :=
  match s.act_address with
  | none => some true
  | some _ =>
    (act_end_time s).map
      (fun e => if time_of_day s.curr_time = time_of_day e then true else false)

/-! ## The planner's schedule maintenance (`_determine_action` in plan.ts)

`generate_task_decomp` is an Oracle (LLM) call and is passed in as a
function parameter. -/

/-- `determine_decomp`: whether an action description/duration should be
decomposed (sleep-related blocks mostly should not). -/
def determine_decomp (act_desp : String) (act_dura : Int) : Bool :=
  if ¬ (str_includes act_desp "sleep") ∧ ¬ (str_includes act_desp "bed") then
    true
  else if str_includes act_desp "sleeping" ∨ str_includes act_desp "asleep"
      ∨ str_includes act_desp "in bed" then
    false
  else if (str_includes act_desp "sleep" ∨ str_includes act_desp "bed")
      ∧ act_dura > 60 then
    false
  else true

/-- The loop of `get_f_daily_schedule_index`: count the blocks whose
cumulative duration does not exceed the minutes elapsed today. -/
def sched_index_loop : List (String × Int) → Int → Int → Nat → Nat
  | [], _, _, idx => idx
  | (_, dur) :: rest, elapsed, target, idx =>
    if elapsed + dur > target then idx
    else sched_index_loop rest (elapsed + dur) target (idx + 1)

/-- The hour component a `Date` renders (`getHours()`), in the UTC model. -/
def hours_of (t : Int) : Nat := (time_of_day t).1

/-- The minute component a `Date` renders (`getMinutes()`). -/
def minutes_of (t : Int) : Nat := (time_of_day t).2.1

/-- `get_f_daily_schedule_index(advance)`: index of the schedule block
containing the time `advance` minutes from now. -/
def get_f_daily_schedule_index (sched : List (String × Int)) (curr_time : Int)
    (advance : Int) : Nat :=
  sched_index_loop sched 0
    ((hours_of curr_time : Int) * 60 + (minutes_of curr_time : Int) + advance) 0

/-- JS `Array.prototype.splice(index, 1, ...repl)`. -/
def splice_at (sched : List (String × Int)) (index : Nat)
    (repl : List (String × Int)) : List (String × Int) :=
  sched.take index ++ repl ++ sched.drop (index + 1)

/-- Total minutes of a schedule (the `x_emergency` summation loop). -/
def sumDur (sched : List (String × Int)) : Int :=
  (sched.map (fun p => p.2)).sum

/-- One conditional decomposition step of `_determine_action`: read the
block at `index`; when it exists, lasts at least 60 minutes and
`determine_decomp` agrees, splice in the Oracle's decomposition. -/
def decomp_step (decomp : String → Int → List (String × Int))
    (sched : List (String × Int)) (index : Nat) : List (String × Int) :=
  let b := sched.getD index ("", 0)
  if b.2 ≥ 60 ∧ determine_decomp b.1 b.2 then
    splice_at sched index (decomp b.1 b.2)
  else sched

/-- The schedule maintenance performed by every `_determine_action` call:
during the first block of the day decompose up to two upcoming blocks, then
(before 11 pm) decompose the block an hour ahead, and finally push a
trailing "sleeping" block covering `1440` minus the current total — the
push is unconditional in the source. -/
def determine_action_schedule (decomp : String → Int → List (String × Int))
    (sched0 : List (String × Int)) (curr_time : Int) : List (String × Int) :=
  let curr_index := get_f_daily_schedule_index sched0 curr_time 0
  let curr_index_60 := get_f_daily_schedule_index sched0 curr_time 60
  let s1 := if curr_index = 0 then decomp_step decomp sched0 curr_index else sched0
  let s2 :=
    if curr_index = 0 ∧ curr_index_60 + 1 < s1.length then
      decomp_step decomp s1 (curr_index_60 + 1)
    else s1
  let s3 :=
    if curr_index_60 < s2.length ∧ hours_of curr_time < 23 then
      decomp_step decomp s2 curr_index_60
    else s2
  s3 ++ [("sleeping", 1440 - sumDur s3)]

/-! ## Maze and the Execute step
(maze.ts and the execute part of plan.ts)

`Math.random`-driven choices (the shuffle of the candidate tiles and the
index drawn in the `<random>` branch) are passed in as parameters. -/

/-- The world grid as the Execute step sees it: the collision maze, the
bounds, each tile's current event strings, and the address index built at
load time. -/
structure Maze where
  collision_maze : List (List Nat)
  maze_height : Nat
  maze_width : Nat
  tile_events : Nat → Nat → List String
  address_tiles : List (String × List (Nat × Nat))

/-- `access_tile` is bounds-checked and fatal out of range; only the event
set of the tile is needed here. -/
def access_tile_events (mz : Maze) (t : Nat × Nat) :
    Except String (List String) :=
  if t.2 < mz.maze_height ∧ t.1 < mz.maze_width then
    Except.ok (mz.tile_events t.2 t.1)
  else Except.error "Tile coordinate out of bounds"

/-- The collision marker constant of the execute module (`"32125"`). -/
def collision_block_id_exec : Nat := 32125

/-- The persona state the Execute step reads and writes. -/
structure ExecPersona where
  curr_tile : Nat × Nat
  planned_path : List (Nat × Nat)
  act_path_set : Bool
  act_description : String
  act_pronunciatio : Option String
  act_address : String
deriving DecidableEq

/-- Target-tile resolution of `execute`, dispatching on the four address
forms.  A `<persona>` address heads toward the midpoint of the path to the
other agent; a `<waiting>` address is a literal coordinate; a `<random>`
address draws one tile registered under the address with its trailing
segment dropped; the default form takes every tile registered under the full
address.  An address absent from `address_tiles` is a thrown error. -/
def resolve_target_tiles (mz : Maze) (personas : List (String × ExecPersona))
    (persona : ExecPersona) (plan : String) (rand_index : Nat) :
    Except String (List (Nat × Nat)) :=
  if str_includes plan "<persona>" then
    match personas.lookup (((plan.splitOn "<persona>").getD 1 "").trim) with
    | none => Except.error "unknown persona"
    | some tp =>
      let potential_path := path_finder mz.collision_maze persona.curr_tile
        tp.curr_tile collision_block_id_exec
      if potential_path.length ≤ 2 then
        Except.ok [potential_path.getD 0 (0, 0)]
      else
        let mid := potential_path.length / 2
        let potential_1 := path_finder mz.collision_maze persona.curr_tile
          (potential_path.getD mid (0, 0)) collision_block_id_exec
        let potential_2 := path_finder mz.collision_maze persona.curr_tile
          (potential_path.getD (mid + 1) (0, 0)) collision_block_id_exec
        if potential_1.length ≤ potential_2.length then
          Except.ok [potential_path.getD mid (0, 0)]
        else
          Except.ok [potential_path.getD (mid + 1) (0, 0)]
  else if str_includes plan "<waiting>" then
    let parts := plan.splitOn " "
    Except.ok [(((parts.getD 1 "").toNat?).getD 0, ((parts.getD 2 "").toNat?).getD 0)]
  else if str_includes plan "<random>" then
    let basePlan := String.intercalate ":" ((plan.splitOn ":").dropLast)
    match mz.address_tiles.lookup basePlan with
    | some tilesArray => Except.ok [tilesArray.getD rand_index (0, 0)]
    | none => Except.error "Plan not found in maze.address_tiles"
  else
    match mz.address_tiles.lookup plan with
    | none => Except.error "Plan not found in maze.address_tiles"
    | some ts => Except.ok ts

/-- `execute`: when no path is set, resolve the target tiles, sample at most
4 of them (shuffled), prefer tiles no other persona occupies, pick the one
with the globally shortest path and store that path (minus the current
tile); then consume one step from the planned path, staying put when it is
empty.  Returns the updated persona and the
`[next_tile, pronunciatio, description]` triple. -/
def execute (persona0 : ExecPersona) (mz : Maze)
    (personas : List (String × ExecPersona)) (plan : String)
    (shuffle : List (Nat × Nat) → List (Nat × Nat)) (rand_index : Nat) :
    Except String (ExecPersona × ((Nat × Nat) × String × String)) := do
  let persona :=
    if str_includes plan "<random>" ∧ persona0.planned_path.isEmpty then
      { persona0 with act_path_set := false }
    else persona0
  let persona ←
    if persona.act_path_set then pure persona
    else do
      let target_tiles ← resolve_target_tiles mz personas persona plan rand_index
      let sampledTiles :=
        if target_tiles.length < 4 then shuffle target_tiles
        else (shuffle target_tiles).take 4
      let personaNames := personas.map (fun p => p.1)
      let newTargetTiles ← sampledTiles.foldlM
        (fun acc tile => do
          let evs ← access_tile_events mz tile
          let occupied := evs.any
            (fun ev => personaNames.contains ((ev.splitOn ",").getD 0 ""))
          pure (if occupied then acc else acc ++ [tile]))
        ([] : List (Nat × Nat))
      let target_tiles := if newTargetTiles.isEmpty then sampledTiles else newTargetTiles
      let closest := target_tiles.foldl
        (fun best tile =>
          let currPath := path_finder mz.collision_maze persona.curr_tile tile
            collision_block_id_exec
          match best with
          | none => some (tile, currPath)
          | some (bt, bp) =>
            if currPath.length < bp.length then some (tile, currPath)
            else some (bt, bp))
        (none : Option ((Nat × Nat) × List (Nat × Nat)))
      match closest with
      | some (_, path) =>
        pure { persona with planned_path := path.drop 1, act_path_set := true }
      | none => pure persona
  let step :=
    match persona.planned_path with
    | [] => (persona.curr_tile, persona)
    | t :: rest => (t, { persona with planned_path := rest })
  pure (step.2,
    (step.1, (step.2.act_pronunciatio.getD ""),
      step.2.act_description ++ " @ " ++ step.2.act_address))

/-! ## Specification predicates for the pathfinder proofs -/

/-- One grid step: the two coordinates differ by exactly 1 in exactly one of
the two components. -/
def Adj (p q : Nat × Nat) : Prop :=
  (p.1 = q.1 ∧ (p.2 = q.2 + 1 ∨ q.2 = p.2 + 1)) ∨
  (p.2 = q.2 ∧ (p.1 = q.1 + 1 ∨ q.1 = p.1 + 1))

/-- The backtracking condition: some bounds-checked neighbour (up, left,
down, right — the order `backtrack` probes) of cell `(ci, cj)` carries the
value `v`. -/
def BtCond (m : Mat) (ci cj v : Nat) : Prop :=
  (0 < ci ∧ getCell m (ci-1) cj = v) ∨
  (0 < cj ∧ getCell m ci (cj-1) = v) ∨
  (ci < m.length - 1 ∧ getCell m (ci+1) cj = v) ∨
  (cj < (m.getD ci []).length - 1 ∧ getCell m ci (cj+1) = v)

/-- The wave-matrix invariant: the start cell carries 1, only the start cell
carries 1, and every cell valued at least 2 has a neighbour exactly one
distance layer lower. -/
def WaveInv (m : Mat) (start : Nat × Nat) : Prop :=
  getCell m start.1 start.2 = 1
  ∧ (∀ i j, getCell m i j = 1 → i = start.1 ∧ j = start.2)
  ∧ (∀ i j, 2 ≤ getCell m i j → BtCond m i j (getCell m i j - 1))

/-- Rectangularity: every actual row of the matrix has width `W`. -/
def RectM (m : Mat) (W : Nat) : Prop :=
  ∀ r, r < m.length → (m.getD r []).length = W

/-- The bundled invariant carried through the wave propagation. -/
def MInv (H W : Nat) (start : Nat × Nat) (m : Mat) : Prop :=
  WaveInv m start ∧ RectM m W ∧ m.length = H

/-! ## Concrete instances used by the claim witnesses -/

/-- A concrete scratch: a non-chat action that started at the epoch with
seconds 0 and zero duration, observed exactly one day later. -/
def c6Scratch : Scratch :=
  { curr_time := 86400, recency_w := 1, relevance_w := 1, importance_w := 1
    recency_decay := 1, f_daily_schedule := []
    act_address := some "the Ville:cafe:counter", act_start_time := some 0
    act_duration := some 0, chatting_with := none, chatting_end_time := none }

/-- A one-node memory used to instantiate C7. -/
def c7BaseNode : ConceptNode :=
  { node_id := "node_1", node_count := 1, type_count := 1
    node_type := NodeType.event, depth := 0, created := 0, expiration := none
    last_accessed := 0, subject := "maria", predicate := "is", object := "reading"
    description := "reading a book", embedding_key := "reading a book"
    poignancy := 4, keywords := ["maria"], filling := none }

/-- The concrete one-event memory used to instantiate C7. -/
def c7Mem : AssociativeMemory :=
  { id_to_node := [("node_1", c7BaseNode)], seq_event := [c7BaseNode]
    seq_thought := [], seq_chat := [], kw_to_event := []
    kw_to_thought := [], kw_to_chat := [], kw_strength_event := []
    kw_strength_thought := [], embeddings := [] }

/-- The concrete maze with an empty address index used to instantiate C9. -/
def c9Maze : Maze :=
  { collision_maze := [[0]], maze_height := 1, maze_width := 1
    tile_events := fun _ _ => [], address_tiles := [] }

/-- The concrete persona used to instantiate C9. -/
def c9Persona : ExecPersona :=
  { curr_tile := (0, 0), planned_path := [], act_path_set := false
    act_description := "getting coffee", act_pronunciatio := none
    act_address := "the Ville:cafe:counter" }

/-- The rational 1/2 given by its normal form (so that it evaluates in the
kernel). -/
def halfQ : ℚ := ⟨1, 2, by decide, by decide⟩

/-- The older of the two concrete candidate nodes for C1. -/
def c1NodeOld : ConceptNode :=
  { node_id := "node_1", node_count := 1, type_count := 1
    node_type := NodeType.event, depth := 0, created := 0, expiration := none
    last_accessed := 0, subject := "maria", predicate := "is"
    object := "reading", description := "reading a book"
    embedding_key := "reading a book", poignancy := 4, keywords := ["maria"]
    filling := none }

/-- The more recently accessed of the two concrete candidate nodes for C1. -/
def c1NodeNew : ConceptNode :=
  { node_id := "node_2", node_count := 2, type_count := 2
    node_type := NodeType.event, depth := 0, created := 100, expiration := none
    last_accessed := 100, subject := "maria", predicate := "is"
    object := "writing", description := "writing notes"
    embedding_key := "writing notes", poignancy := 4, keywords := ["maria"]
    filling := none }

/-- A two-event memory whose nodes differ in last-accessed time. -/
def c1Mem : AssociativeMemory :=
  { id_to_node := [("node_1", c1NodeOld), ("node_2", c1NodeNew)]
    seq_event := [c1NodeNew, c1NodeOld], seq_thought := [], seq_chat := []
    kw_to_event := [], kw_to_thought := [], kw_to_chat := []
    kw_strength_event := [], kw_strength_thought := [], embeddings := [] }

/-- A persona over `c1Mem` with recency decay 1/2. -/
def c1Persona : Persona :=
  { scratch :=
      { curr_time := 200, recency_w := 1, relevance_w := 1, importance_w := 1
        recency_decay := halfQ, f_daily_schedule := [], act_address := none
        act_start_time := none, act_duration := none, chatting_with := none
        chatting_end_time := none }
    a_mem := c1Mem }

/-- The older of the two concrete candidate nodes for C3 (never accessed
since time 0). -/
def c3NodeX : ConceptNode :=
  { node_id := "n1", node_count := 1, type_count := 1
    node_type := NodeType.event, depth := 0, created := 0, expiration := none
    last_accessed := 0, subject := "maria", predicate := "is"
    object := "reading", description := "reading a book"
    embedding_key := "reading a book", poignancy := 4, keywords := ["maria"]
    filling := none }

/-- The more recently accessed of the two concrete candidate nodes for
C3. -/
def c3NodeY : ConceptNode :=
  { node_id := "n2", node_count := 2, type_count := 2
    node_type := NodeType.event, depth := 0, created := 10, expiration := none
    last_accessed := 10, subject := "maria", predicate := "is"
    object := "writing", description := "writing notes"
    embedding_key := "writing notes", poignancy := 4, keywords := ["maria"]
    filling := none }

/-- A two-event memory for the concrete `new_retrieve` runs of C3. -/
def c3DupMem : AssociativeMemory :=
  { id_to_node := [("n1", c3NodeX), ("n2", c3NodeY)]
    seq_event := [c3NodeX, c3NodeY], seq_thought := [], seq_chat := []
    kw_to_event := [], kw_to_thought := [], kw_to_chat := []
    kw_strength_event := [], kw_strength_thought := [], embeddings := [] }

/-- The concrete persona of the C3 runs: pure recency scoring (the
relevance and importance weights are 0) with decay 1/2 at time 100. -/
def c3DupPersona : Persona :=
  { scratch :=
      { curr_time := 100, recency_w := 1, relevance_w := 0, importance_w := 0
        recency_decay := halfQ, f_daily_schedule := [], act_address := none
        act_start_time := none, act_duration := none, chatting_with := none
        chatting_end_time := none }
    a_mem := c3DupMem }

/-- `c3NodeX` touched at time 100. -/
def c3X100 : ConceptNode := { c3NodeX with last_accessed := 100 }

/-- `c3NodeY` touched at time 100. -/
def c3Y100 : ConceptNode := { c3NodeY with last_accessed := 100 }

/-- `c3DupMem` after the first pass touches node "n1". -/
def c3Mem1 : AssociativeMemory :=
  { c3DupMem with
    id_to_node := [("n1", c3X100), ("n2", c3NodeY)]
    seq_event := [c3X100, c3NodeY] }

/-- `c3Mem1` after the second pass also touches node "n2". -/
def c3Mem2 : AssociativeMemory :=
  { c3DupMem with
    id_to_node := [("n1", c3X100), ("n2", c3Y100)]
    seq_event := [c3X100, c3Y100] }

/-- The persona after the first pass of the C3 runs. -/
def c3P1 : Persona := { c3DupPersona with a_mem := c3Mem1 }

/-- The persona after the second pass of the duplicated C3 run. -/
def c3P2 : Persona := { c3DupPersona with a_mem := c3Mem2 }

/-! ## Helper lemmas -/

/-- Folding `min` over a list whose members all equal the seed yields the
seed. -/
theorem foldl_min_all_eq (v : ℚ) :
    ∀ l : List ℚ, (∀ x ∈ l, x = v) → l.foldl min v = v := by
  intro l
  induction l with
  | nil => intro _; rfl
  | cons x xs ih =>
    intro h
    have hx : x = v := h x (by simp)
    simp only [List.foldl_cons, hx, min_self]
    exact ih (fun y hy => h y (by simp [hy]))

/-- Folding `max` over a list whose members all equal the seed yields the
seed. -/
theorem foldl_max_all_eq (v : ℚ) :
    ∀ l : List ℚ, (∀ x ∈ l, x = v) → l.foldl max v = v := by
  intro l
  induction l with
  | nil => intro _; rfl
  | cons x xs ih =>
    intro h
    have hx : x = v := h x (by simp)
    simp only [List.foldl_cons, hx, max_self]
    exact ih (fun y hy => h y (by simp [hy]))

/-- Every list member is bounded by a `max` fold over the list. -/
theorem le_foldl_max (l : List Nat) :
    ∀ (a : Nat), (∀ x ∈ l, x ≤ l.foldl max a) ∧ a ≤ l.foldl max a := by
  induction l with
  | nil => intro a; exact ⟨by simp, by simp⟩
  | cons y ys ih =>
    intro a
    simp only [List.foldl_cons]
    refine ⟨?_, le_trans (le_max_left a y) (ih (max a y)).2⟩
    intro x hx
    rcases List.mem_cons.mp hx with h | h
    · subst h
      exact le_trans (le_max_right a x) (ih (max a x)).2
    · exact (ih (max a y)).1 x h

/-- A `max` fold is the seed or some list member. -/
theorem foldl_max_mem (l : List Nat) :
    ∀ (a : Nat), l.foldl max a = a ∨ l.foldl max a ∈ l := by
  induction l with
  | nil => intro a; left; rfl
  | cons y ys ih =>
    intro a
    rcases ih (max a y) with h | h
    · rcases max_cases a y with ⟨he, _⟩ | ⟨he, _⟩
      · left; simpa [he] using h
      · right; simp only [List.foldl_cons]; rw [h, he]; exact List.mem_cons_self _ _
    · right; exact List.mem_cons_of_mem _ h

/-- Rendered times of day agree exactly when the instants agree modulo one
day (86400 seconds). -/
theorem time_of_day_eq_iff (t1 t2 : Int) :
    time_of_day t1 = time_of_day t2 ↔ t1 % 86400 = t2 % 86400 := by
  unfold time_of_day
  constructor
  · intro h
    have h1 : (t1 % 86400).toNat / 3600 = (t2 % 86400).toNat / 3600 :=
      congrArg Prod.fst h
    have h2 : (t1 % 86400).toNat % 3600 / 60 = (t2 % 86400).toNat % 3600 / 60 :=
      congrArg (fun p => p.2.1) h
    have h3 : (t1 % 86400).toNat % 60 = (t2 % 86400).toNat % 60 :=
      congrArg (fun p => p.2.2) h
    have e1 : (0 : Int) ≤ t1 % 86400 := Int.emod_nonneg t1 (by norm_num)
    have e2 : (0 : Int) ≤ t2 % 86400 := Int.emod_nonneg t2 (by norm_num)
    omega
  · intro h
    rw [h]

/-! ## Claim C2 — normalize_dict_floats on all-equal values -/

/-- On a dictionary whose values all equal `v`, `normalize_dict_floats`
rewrites every value to the half-range `(b - a) / 2`. -/
theorem normalize_dict_floats_const (d : RDict) (a b v : ℚ)
    (hall : ∀ p ∈ d, p.2 = v) :
    normalize_dict_floats d a b = d.map (fun p => (p.1, (b - a) / 2)) := by
  unfold normalize_dict_floats
  rcases hd : d with _ | ⟨q, qs⟩
  · simp
  · have hq : q.2 = v := hall q (by simp [hd])
    have hvs : ∀ x ∈ qs.map (fun p => p.2), x = v := by
      intro x hx
      rcases List.mem_map.mp hx with ⟨r, hr, hrx⟩
      rw [← hrx]; exact hall r (by simp [hd, hr])
    simp only [List.map_cons, hq]
    rw [foldl_min_all_eq v _ hvs, foldl_max_all_eq v _ hvs]
    simp

/-- C2, counterexample: `normalize_dict_floats {a:5,b:5,c:5} -5 5` maps every
key to 5 — the half-range `(target_max - target_min)/2` — and not to the
midpoint `(target_min + target_max)/2 = 0` the claim asserts. -/
theorem C2_counterexample :
    normalize_dict_floats [("a", 5), ("b", 5), ("c", 5)] (-5) 5 =
      [("a", 5), ("b", 5), ("c", 5)]
    ∧ ((5 : ℚ) ≠ ((-5) + 5) / 2) := by
  constructor
  · rw [normalize_dict_floats_const [("a", 5), ("b", 5), ("c", 5)] (-5) 5 5
      (by intro p hp; simp at hp; rcases hp with h | h | h <;> simp [h])]
    norm_num
  · norm_num

/-- C2, amended: on a non-empty dictionary whose values are all equal,
`normalize_dict_floats` maps every key to `(target_max - target_min) / 2` —
the midpoint only of target ranges starting at 0 — so every key maps to
`1/2` for the target range `[0,1]` but to `5` for the range `[-5,5]`. -/
theorem normalize_dict_floats_equal_values (d : RDict) (tmin tmax v : ℚ)
    (hne : d ≠ []) (hall : ∀ p ∈ d, p.2 = v) :
    (∀ p ∈ normalize_dict_floats d tmin tmax, p.2 = (tmax - tmin) / 2)
    ∧ (∀ p ∈ normalize_dict_floats d 0 1, p.2 = 1 / 2) := by
  constructor
  · intro p hp
    rw [normalize_dict_floats_const d tmin tmax v hall] at hp
    rcases List.mem_map.mp hp with ⟨r, _, hrp⟩
    rw [← hrp]
  · intro p hp
    rw [normalize_dict_floats_const d 0 1 v hall] at hp
    rcases List.mem_map.mp hp with ⟨r, _, hrp⟩
    rw [← hrp]
    norm_num
/-- C2, witness: the amended statement at `{a:5,b:5,c:5}`. -/
theorem normalize_dict_floats_equal_values_witness :
    (∀ p ∈ normalize_dict_floats [("a", 5), ("b", 5), ("c", 5)] (-5) 5,
        p.2 = (5 - (-5)) / 2)
    ∧ (∀ p ∈ normalize_dict_floats [("a", 5), ("b", 5), ("c", 5)] 0 1,
        p.2 = 1 / 2) :=
  normalize_dict_floats_equal_values [("a", 5), ("b", 5), ("c", 5)] (-5) 5 5
    (by decide) (by decide)

/-! ## Claim C4 — pathfinder iteration-cap exhaustion -/

/-- C4: on a grid where the end cell is walled off, the wave exhausts its
iteration cap without marking the end cell (`wave_matrix … = 0`), yet
`path_finder` neither raises nor returns a designated no-path value: it
silently returns the one-element list holding only the end coordinate,
which does not connect the start `(0,0)` to the end `(1,1)`. -/
theorem path_finder_cap_exhausted_returns_partial :
    getCell (wave_matrix [[0, 1], [1, 0]] (0, 0) (1, 1) 1) 1 1 = 0
    ∧ path_finder [[0, 1], [1, 0]] (0, 0) (1, 1) 1 = [(1, 1)]
    ∧ (0, 0) ∉ path_finder [[0, 1], [1, 0]] (0, 0) (1, 1) 1 := by
  refine ⟨by decide, by decide, by decide⟩

/-! ## Claim C5 — schedule closure at the end of _determine_action -/

/-- C5: whatever the Oracle's decompositions, the current time and the
incoming schedule, the schedule `_determine_action` leaves behind sums to
exactly 1440 minutes, the deficit being carried by a trailing "sleeping"
block. -/
theorem determine_action_schedule_sums_1440
    (decomp : String → Int → List (String × Int))
    (sched0 : List (String × Int)) (curr_time : Int) :
    sumDur (determine_action_schedule decomp sched0 curr_time) = 1440
    ∧ ∃ d, (determine_action_schedule decomp sched0 curr_time).getLast? =
        some ("sleeping", d) := by
  unfold determine_action_schedule
  constructor
  · simp [sumDur]
  · exact ⟨_, List.getLast?_concat _⟩

/-- C5, witness: the closure property at a concrete schedule, decomposition
and time. -/
theorem determine_action_schedule_sums_1440_witness :
    sumDur (determine_action_schedule (fun _ _ => [])
        [("waking up", 60), ("working", 480)] 28800) = 1440
    ∧ ∃ d, (determine_action_schedule (fun _ _ => [])
        [("waking up", 60), ("working", 480)] 28800).getLast? =
        some ("sleeping", d) :=
  determine_action_schedule_sums_1440 (fun _ _ => [])
    [("waking up", 60), ("working", 480)] 28800

/-! ## Claim C6 — act_check_finished -/


/-- C6, counterexample: the source compares rendered time-of-day strings, so
`act_check_finished` answers true one whole day after the action's end time
even though the current time does not equal the end time. -/
theorem C6_counterexample :
    act_check_finished c6Scratch = some true
    ∧ act_end_time c6Scratch = some 0
    ∧ c6Scratch.curr_time ≠ 0 := by
  refine ⟨by decide, by decide, by decide⟩

/-- C6, amended: with a current action, `act_check_finished` answers true
exactly when the current time and the end time (chat end time for chats,
otherwise the start time rounded up to the next whole minute plus the
duration) render to the same time of day, i.e. agree modulo 86400 seconds —
not when the instants themselves are equal. -/
theorem act_check_finished_iff (s : Scratch) (addr : String) (e : Int)
    (ha : s.act_address = some addr) (he : act_end_time s = some e) :
    act_check_finished s = some true ↔ s.curr_time % 86400 = e % 86400 := by
  unfold act_check_finished
  rw [ha, he]
  simp only [Option.map_some]
  constructor
  · intro h
    have : (if time_of_day s.curr_time = time_of_day e then true else false) = true := by
      exact Option.some.inj h
    have heq : time_of_day s.curr_time = time_of_day e := by
      by_contra hne
      simp [hne] at this
    exact (time_of_day_eq_iff _ _).mp heq
  · intro h
    have heq : time_of_day s.curr_time = time_of_day e :=
      (time_of_day_eq_iff _ _).mpr h
    simp [heq]

/-- C6, witness: the amended equivalence evaluated on the concrete scratch
(both sides true: one day apart renders the same time of day). -/
theorem act_check_finished_iff_witness :
    act_check_finished c6Scratch = some true ↔
      c6Scratch.curr_time % 86400 = (0 : Int) % 86400 :=
  act_check_finished_iff c6Scratch "the Ville:cafe:counter" 0 rfl (by decide)

/-! ## Claim C7 — node depths in the AssociativeMemory adds -/

/-- C7: a thought added with a non-empty evidence list whose ids all resolve
gets depth one plus the maximum evidence depth (strictly above each evidence
node and exactly one above some evidence node); every added event or chat
node has depth 0. -/
theorem concept_node_depths
    (mem : AssociativeMemory) (created : Int) (expiration : Option Int)
    (s p o de : String) (kw : List String) (poi : ℚ) (ep : String × List ℚ)
    (fill : Option (List String)) (ids : List String) (ns : List ConceptNode)
    (hne : ids ≠ [])
    (hres : ids.mapM (fun i => mem.id_to_node.lookup i) = some ns) :
    (∀ ev ∈ ns, ev.depth <
        (add_thought mem created expiration s p o de kw poi ep (some ids)).2.depth)
    ∧ (∃ ev ∈ ns, (add_thought mem created expiration s p o de kw poi ep
        (some ids)).2.depth = ev.depth + 1)
    ∧ (add_event mem created expiration s p o de kw poi ep fill).2.depth = 0
    ∧ (add_chat mem created expiration s p o de kw poi ep fill).2.depth = 0 := by
  have hdepth : (add_thought mem created expiration s p o de kw poi ep
      (some ids)).2.depth = (ns.map (fun n => n.depth)).foldl max 0 + 1 := by
    show thought_depth mem (some ids) = _
    simp only [thought_depth]
    rw [if_neg (by simpa using hne), hres]
  have hns : ns ≠ [] := by
    rcases ids with _ | ⟨i, rest⟩
    · exact absurd rfl hne
    · intro hnil
      rw [hnil] at hres
      simp only [List.mapM_cons] at hres
      rcases hl : mem.id_to_node.lookup i with _ | n
      · rw [hl] at hres; simp at hres
      · rw [hl] at hres
        rcases hr : rest.mapM (fun i => mem.id_to_node.lookup i) with _ | ms
        · rw [hr] at hres; simp at hres
        · rw [hr] at hres; simp at hres
  refine ⟨?_, ?_, rfl, rfl⟩
  · intro ev hev
    rw [hdepth]
    have := (le_foldl_max (ns.map (fun n => n.depth)) 0).1 ev.depth
      (List.mem_map.mpr ⟨ev, hev, rfl⟩)
    omega
  · rcases foldl_max_mem (ns.map (fun n => n.depth)) 0 with h | h
    · rcases hns' : ns with _ | ⟨n, ns'⟩
      · exact absurd hns' hns
      · subst hns'
        refine ⟨n, by simp, ?_⟩
        rw [hdepth, h]
        have hle := (le_foldl_max ((n :: ns').map (fun x => x.depth)) 0).1 n.depth
          (by simp)
        rw [h] at hle
        omega
    · rcases List.mem_map.mp h with ⟨ev, hev, hd⟩
      exact ⟨ev, hev, by rw [hdepth, ← hd]⟩



/-- C7, witness: the depth facts at a concrete memory holding one depth-0
event used as evidence. -/
theorem concept_node_depths_witness :
    (∀ ev ∈ [c7BaseNode], ev.depth <
        (add_thought c7Mem 0 none "maria" "thinks" "books" "books are great"
          ["maria"] 5 ("books are great", []) (some ["node_1"])).2.depth)
    ∧ (∃ ev ∈ [c7BaseNode],
        (add_thought c7Mem 0 none "maria" "thinks" "books" "books are great"
          ["maria"] 5 ("books are great", []) (some ["node_1"])).2.depth = ev.depth + 1)
    ∧ (add_event c7Mem 0 none "maria" "thinks" "books" "books are great"
          ["maria"] 5 ("books are great", []) none).2.depth = 0
    ∧ (add_chat c7Mem 0 none "maria" "thinks" "books" "books are great"
          ["maria"] 5 ("books are great", []) none).2.depth = 0 :=
  concept_node_depths c7Mem 0 none "maria" "thinks" "books" "books are great"
    ["maria"] 5 ("books are great", []) none ["node_1"] [c7BaseNode]
    (by decide) (by decide)

/-! ## Claim C8 — pathfinder on the obstacle-free 5×5 grid -/

/-- C8: on an obstacle-free 5×5 grid, `path_finder` from `(0,0)` to `(4,4)`
returns exactly 9 cells starting at `(0,0)` and ending at `(4,4)`, and the
function is deterministic: identical inputs give identical outputs. -/
theorem path_finder_5x5_deterministic :
    (path_finder (List.replicate 5 (List.replicate 5 0)) (0, 0) (4, 4) 1).length = 9
    ∧ (path_finder (List.replicate 5 (List.replicate 5 0)) (0, 0) (4, 4) 1).headD (9, 9)
        = (0, 0)
    ∧ (path_finder (List.replicate 5 (List.replicate 5 0)) (0, 0) (4, 4) 1).getLastD (9, 9)
        = (4, 4)
    ∧ ∀ (g : List (List Nat)) (s e : Nat × Nat) (c : Nat),
        path_finder g s e c = path_finder g s e c := by
  refine ⟨by decide, by decide, by decide, fun g s e c => rfl⟩

/-! ## Claim C9 — unregistered action addresses are fatal in execute -/

/-- Target resolution errors out for a `<random>`-form or default-form plan
whose looked-up address string is absent from `address_tiles`. -/
theorem resolve_target_tiles_missing (mz : Maze)
    (personas : List (String × ExecPersona)) (persona : ExecPersona)
    (plan : String) (rand_index : Nat)
    (hp : str_includes plan "<persona>" = false)
    (hw : str_includes plan "<waiting>" = false)
    (hmiss : (str_includes plan "<random>" = true ∧
        mz.address_tiles.lookup
          (String.intercalate ":" ((plan.splitOn ":").dropLast)) = none)
      ∨ (str_includes plan "<random>" = false ∧
        mz.address_tiles.lookup plan = none)) :
    resolve_target_tiles mz personas persona plan rand_index =
      Except.error "Plan not found in maze.address_tiles" := by
  unfold resolve_target_tiles
  rcases hmiss with ⟨hr, hl⟩ | ⟨hr, hl⟩ <;> simp [hp, hw, hr, hl]

/-- C9: when a path must be constructed (`act_path_set` is false) and the
plan is in `<random>` form with its trimmed address unregistered, or in
default full-address form with the full address unregistered, `execute`
propagates a thrown error; it never produces a target-tile result. -/
theorem execute_missing_address_error (persona0 : ExecPersona) (mz : Maze)
    (personas : List (String × ExecPersona)) (plan : String)
    (shuffle : List (Nat × Nat) → List (Nat × Nat)) (rand_index : Nat)
    (hps : persona0.act_path_set = false)
    (hp : str_includes plan "<persona>" = false)
    (hw : str_includes plan "<waiting>" = false)
    (hmiss : (str_includes plan "<random>" = true ∧
        mz.address_tiles.lookup
          (String.intercalate ":" ((plan.splitOn ":").dropLast)) = none)
      ∨ (str_includes plan "<random>" = false ∧
        mz.address_tiles.lookup plan = none)) :
    execute persona0 mz personas plan shuffle rand_index =
      Except.error "Plan not found in maze.address_tiles" := by
  unfold execute
  have hres := resolve_target_tiles_missing mz personas
  by_cases hc : str_includes plan "<random>" ∧ persona0.planned_path.isEmpty
  · simp only [if_pos hc]
    rw [hres _ plan rand_index hp hw hmiss]
    rfl
  · simp only [if_neg hc, hps]
    rw [hres persona0 plan rand_index hp hw hmiss]
    rfl



/-- C9, witness: executing a default-form plan whose address was never
registered errors out. -/
theorem execute_missing_address_error_witness :
    execute c9Persona c9Maze [] "the Ville:cafe:counter" (fun l => l) 0 =
      Except.error "Plan not found in maze.address_tiles" :=
  execute_missing_address_error c9Persona c9Maze [] "the Ville:cafe:counter"
    (fun l => l) 0 rfl (by decide) (by decide) (Or.inr ⟨by decide, rfl⟩)

/-! ## Claim C1 — the direction of the recency ranking in new_retrieve -/

/-- Setting a fresh key appends it. -/
theorem mapSet_of_lookup_none {α : Type} (m : List (String × α)) (k : String)
    (v : α) (h : m.lookup k = none) : mapSet m k v = m ++ [(k, v)] := by
  unfold mapSet
  simp [h]

/-- Looking a key up past a list that does not contain it. -/
theorem lookup_append_of_none {α : Type} (l1 l2 : List (String × α))
    (k : String) (h : l1.lookup k = none) :
    (l1 ++ l2).lookup k = l2.lookup k := by
  induction l1 with
  | nil => simp
  | cons q qs ih =>
    rcases q with ⟨a, b⟩
    simp only [List.lookup, List.cons_append] at h ⊢
    cases hka : (k == a) with
    | true => rw [hka] at h; simp at h
    | false => rw [hka] at h; exact ih h

/-- A fold of fresh-key insertions is an append. -/
theorem foldl_mapSet_append {β : Type} (g : β → String × ℚ) (ps : List β) :
    ∀ (d0 : RDict), (∀ p ∈ ps, d0.lookup (g p).1 = none) →
      ((ps.map g).map (fun p => p.1)).Nodup →
      ps.foldl (fun d p => mapSet d (g p).1 (g p).2) d0 = d0 ++ ps.map g := by
  induction ps with
  | nil => intro d0 _ _; simp
  | cons q qs ih =>
    intro d0 hfresh hnd
    simp only [List.foldl_cons]
    rw [mapSet_of_lookup_none d0 (g q).1 (g q).2 (hfresh q (by simp))]
    simp only [List.map_cons, List.nodup_cons] at hnd
    rw [ih (d0 ++ [g q]) ?_ hnd.2]
    · simp
    · intro p hp
      rw [lookup_append_of_none _ _ _ (hfresh p (by simp [hp]))]
      have hne : (g q).1 ≠ (g p).1 := by
        intro heq
        exact hnd.1 (by
          rw [heq]
          exact List.mem_map.mpr ⟨g p, List.mem_map.mpr ⟨p, hp, rfl⟩, rfl⟩)
      have hbeq : ((g p).1 == (g q).1) = false :=
        beq_eq_false_iff_ne.mpr (Ne.symm hne)
      simp [List.lookup, hbeq]

/-- The keys of an enum-built score dictionary are the node ids, in order. -/
theorem enum_map_keys (cs : List ConceptNode) (f : Nat → ℚ) :
    (cs.enum.map
        (fun p : Nat × ConceptNode => (p.2.node_id, f p.1))).map
      (fun p => p.1) = cs.map (fun n => n.node_id) := by
  rw [List.map_map]
  have hfun : cs.enum.map
      ((fun p : String × ℚ => p.1) ∘
        (fun p : Nat × ConceptNode => (p.2.node_id, f p.1))) =
      cs.enum.map ((fun n : ConceptNode => n.node_id) ∘ Prod.snd) := rfl
  rw [hfun, ← List.map_map, List.enum_map_snd]

/-- With pairwise-distinct node ids, `extract_recency` is the dictionary
mapping the node at index `i` of the (ascending-sorted) input to
`recency_decay ^ (i + 1)`. -/
theorem extract_recency_eq_enum (persona : Persona) (cs : List ConceptNode)
    (hnd : (cs.map (fun n => n.node_id)).Nodup) :
    extract_recency persona cs =
      cs.enum.map
        (fun p => (p.2.node_id, persona.scratch.recency_decay ^ (p.1 + 1))) := by
  unfold extract_recency
  have h := foldl_mapSet_append
    (fun p : Nat × ConceptNode =>
      (p.2.node_id, persona.scratch.recency_decay ^ (p.1 + 1)))
    cs.enum [] (by intro p _; rfl) ?_
  · simpa using h
  · rw [enum_map_keys cs (fun n => persona.scratch.recency_decay ^ (n + 1))]
    exact hnd

/-- In an association list with pairwise-distinct keys, looking up the key
of the `i`-th entry returns the `i`-th value. -/
theorem lookup_getElem_of_nodup (l : List (String × ℚ)) :
    ∀ (i : Nat) (h : i < l.length),
      (l.map (fun p => p.1)).Nodup →
      l.lookup (l.get ⟨i, h⟩).1 = some (l.get ⟨i, h⟩).2 := by
  induction l with
  | nil => intro i h; simp at h
  | cons q qs ih =>
    intro i h hnd
    simp only [List.map_cons, List.nodup_cons] at hnd
    cases i with
    | zero =>
      simp [List.lookup]
    | succ n =>
      have hn : n < qs.length := by simpa using h
      have hmem : (qs.get ⟨n, hn⟩).1 ∈ qs.map (fun p => p.1) :=
        List.mem_map.mpr ⟨qs.get ⟨n, hn⟩, List.get_mem qs n hn, rfl⟩
      have hne : ((qs.get ⟨n, hn⟩).1 == q.1) = false :=
        beq_eq_false_iff_ne.mpr (fun heq => hnd.1 (heq ▸ hmem))
      show List.lookup (qs.get ⟨n, hn⟩).1 (q :: qs) = some (qs.get ⟨n, hn⟩).2
      simp only [List.lookup, hne]
      exact ih n hn hnd.2

/-- Looking up the id of the node at index `i` in an enum-built score
dictionary returns the score at index `i`. -/
theorem lookup_enum_map (cs : List ConceptNode) (f : Nat → ℚ)
    (hnd : (cs.map (fun n => n.node_id)).Nodup) (i : Nat) (hi : i < cs.length) :
    (cs.enum.map (fun p : Nat × ConceptNode => (p.2.node_id, f p.1))).lookup
        (cs.get ⟨i, hi⟩).node_id = some (f i) := by
  have hlen : i < (cs.enum.map
      (fun p : Nat × ConceptNode => (p.2.node_id, f p.1))).length := by
    simpa using hi
  have hkeys : ((cs.enum.map
      (fun p : Nat × ConceptNode => (p.2.node_id, f p.1))).map
      (fun p => p.1)).Nodup := by
    rw [enum_map_keys cs f]; exact hnd
  have hget : (cs.enum.map
      (fun p : Nat × ConceptNode => (p.2.node_id, f p.1))).get ⟨i, hlen⟩ =
      ((cs.get ⟨i, hi⟩).node_id, f i) := by
    simp [List.get_eq_getElem, List.getElem_map, List.getElem_enum]
  have h := lookup_getElem_of_nodup _ i hlen hkeys
  rw [hget] at h
  exact h

/-- A stable insert leaves exactly one new occurrence. -/
theorem sort_insert_perm {α : Type} (le : α → α → Bool) (x : α) :
    ∀ (l : List α), (sort_insert le x l).Perm (x :: l) := by
  intro l
  induction l with
  | nil => exact List.Perm.refl _
  | cons y ys ih =>
    unfold sort_insert
    by_cases h : le x y = true
    · rw [if_pos h]
    · rw [if_neg h]
      exact (List.Perm.cons y ih).trans (List.Perm.swap x y ys)

/-- The stable sort permutes its input. -/
theorem stable_sort_perm {α : Type} (le : α → α → Bool) (l : List α) :
    (stable_sort le l).Perm l := by
  induction l with
  | nil => exact List.Perm.refl _
  | cons x xs ih =>
    show (sort_insert le x (stable_sort le xs)).Perm (x :: xs)
    exact (sort_insert_perm le x _).trans (List.Perm.cons x ih)

/-- Inserting into a sorted list keeps it sorted (for a transitive, total
comparator). -/
theorem pairwise_sort_insert {α : Type} (le : α → α → Bool)
    (htrans : ∀ a b c, le a b = true → le b c = true → le a c = true)
    (htot : ∀ a b, le a b = false → le b a = true) (x : α) :
    ∀ (l : List α), List.Pairwise (fun a b => le a b = true) l →
      List.Pairwise (fun a b => le a b = true) (sort_insert le x l) := by
  intro l
  induction l with
  | nil => intro _; simp [sort_insert]
  | cons y ys ih =>
    intro hp
    rcases List.pairwise_cons.mp hp with ⟨hy, hys⟩
    unfold sort_insert
    by_cases h : le x y = true
    · rw [if_pos h]
      refine List.pairwise_cons.mpr ⟨?_, hp⟩
      intro z hz
      rcases List.mem_cons.mp hz with rfl | hz2
      · exact h
      · exact htrans x y z h (hy z hz2)
    · rw [if_neg h]
      refine List.pairwise_cons.mpr ⟨?_, ih hys⟩
      intro z hz
      rcases List.mem_cons.mp ((sort_insert_perm le x ys).mem_iff.mp hz) with
        hzx | hz2
      · subst hzx
        exact htot _ y (by simpa using h)
      · exact hy z hz2

/-- The stable sort sorts (for a transitive, total comparator). -/
theorem pairwise_stable_sort {α : Type} (le : α → α → Bool)
    (htrans : ∀ a b c, le a b = true → le b c = true → le a c = true)
    (htot : ∀ a b, le a b = false → le b a = true) (l : List α) :
    List.Pairwise (fun a b => le a b = true) (stable_sort le l) := by
  induction l with
  | nil => simp [stable_sort]
  | cons x xs ih =>
    show List.Pairwise _ (sort_insert le x (stable_sort le xs))
    exact pairwise_sort_insert le htrans htot x _ ih

/-- The candidate list of `new_retrieve` is ascending in last-accessed
time. -/
theorem candidate_nodes_sorted (mem : AssociativeMemory) :
    List.Pairwise (fun a b : ConceptNode => a.last_accessed ≤ b.last_accessed)
      (candidate_nodes mem) := by
  unfold candidate_nodes
  rw [List.pairwise_map]
  set ps : List (Int × ConceptNode) :=
    (mem.seq_event.filter
        (fun e => ¬ (str_includes e.embedding_key "idle"))).map
      (fun e => (e.last_accessed, e))
    ++ (mem.seq_thought.filter
        (fun t => ¬ (str_includes t.embedding_key "idle"))).map
      (fun t => (t.last_accessed, t)) with hps
  have hall : ∀ p ∈ ps, p.1 = p.2.last_accessed := by
    intro p hp
    rw [hps] at hp
    rcases List.mem_append.mp hp with h | h <;>
      · rcases List.mem_map.mp h with ⟨n, _, hn⟩
        rw [← hn]
  have hs := pairwise_stable_sort
    (fun a b : Int × ConceptNode => decide (a.1 ≤ b.1))
    (by
      intro a b c hab hbc
      simp only [decide_eq_true_eq] at hab hbc ⊢
      exact le_trans hab hbc)
    (by
      intro a b hab
      simp only [decide_eq_false_iff_not] at hab
      simp only [decide_eq_true_eq]
      exact le_of_not_le hab)
    ps
  refine hs.imp_of_mem ?_
  intro a b ha hb hab
  have ha2 := hall a ((stable_sort_perm _ _).mem_iff.mp ha)
  have hb2 := hall b ((stable_sort_perm _ _).mem_iff.mp hb)
  simp only [decide_eq_true_eq] at hab
  rw [ha2, hb2] at hab
  exact hab

/-- C1, amended: `new_retrieve` sorts the candidate nodes ascending by
last-accessed time, and `extract_recency` assigns the node at rank `i`
counting from the OLDEST (0-based) the score `recency_decay ^ (i + 1)`: the
oldest node receives exponent 1 — the highest score for a decay below 1 —
and recency strictly decreases toward more recently accessed nodes, the
opposite direction from the claim. -/
theorem extract_recency_rank (persona : Persona)
    (hnd : ((candidate_nodes persona.a_mem).map (fun n => n.node_id)).Nodup)
    (h0 : 0 < persona.scratch.recency_decay)
    (h1 : persona.scratch.recency_decay < 1) :
    (∀ (i : Nat) (hi : i < (candidate_nodes persona.a_mem).length),
      (extract_recency persona (candidate_nodes persona.a_mem)).lookup
          ((candidate_nodes persona.a_mem).get ⟨i, hi⟩).node_id =
        some (persona.scratch.recency_decay ^ (i + 1)))
    ∧ (∀ (i j : Nat) (hi : i < (candidate_nodes persona.a_mem).length)
        (hj : j < (candidate_nodes persona.a_mem).length), i ≤ j →
        ((candidate_nodes persona.a_mem).get ⟨i, hi⟩).last_accessed ≤
          ((candidate_nodes persona.a_mem).get ⟨j, hj⟩).last_accessed)
    ∧ (∀ (i j : Nat), i < j →
        persona.scratch.recency_decay ^ (j + 1) <
          persona.scratch.recency_decay ^ (i + 1)) := by
  refine ⟨?_, ?_, ?_⟩
  · intro i hi
    rw [extract_recency_eq_enum persona _ hnd]
    exact lookup_enum_map (candidate_nodes persona.a_mem)
      (fun n => persona.scratch.recency_decay ^ (n + 1)) hnd i hi
  · intro i j hi hj hij
    rcases eq_or_lt_of_le hij with heq | hlt
    · subst heq; exact le_refl _
    · have hp := List.pairwise_iff_getElem.mp
        (candidate_nodes_sorted persona.a_mem) i j hi hj hlt
      simpa [List.get_eq_getElem] using hp
  · intro i j hij
    exact pow_lt_pow_right_of_lt_one₀ h0 h1 (by omega)






/-- C1, counterexample: in `new_retrieve`'s candidate ranking over `c1Mem`,
the most recently accessed node ("node_2") receives recency score
`decay ^ 2`, not the claimed `decay ^ 1`, which instead goes to the OLDEST
node ("node_1"); the two scores differ, so the claim is false on this
input. -/
theorem C1_counterexample :
    (∀ n ∈ candidate_nodes c1Persona.a_mem,
      n.last_accessed ≤ c1NodeNew.last_accessed)
    ∧ c1NodeOld.last_accessed < c1NodeNew.last_accessed
    ∧ (extract_recency c1Persona (candidate_nodes c1Persona.a_mem)).lookup
        "node_2" = some (c1Persona.scratch.recency_decay ^ 2)
    ∧ (extract_recency c1Persona (candidate_nodes c1Persona.a_mem)).lookup
        "node_1" = some (c1Persona.scratch.recency_decay ^ 1)
    ∧ c1Persona.scratch.recency_decay ^ 2 ≠ c1Persona.scratch.recency_decay ^ 1 := by
  refine ⟨by decide, by decide, by decide, by decide, by decide⟩

/-- C1, witness: the amended ranking facts instantiated on the concrete
two-node persona. -/
theorem extract_recency_rank_witness :
    (∀ (i : Nat) (hi : i < (candidate_nodes c1Persona.a_mem).length),
      (extract_recency c1Persona (candidate_nodes c1Persona.a_mem)).lookup
          ((candidate_nodes c1Persona.a_mem).get ⟨i, hi⟩).node_id =
        some (c1Persona.scratch.recency_decay ^ (i + 1)))
    ∧ (∀ (i j : Nat) (hi : i < (candidate_nodes c1Persona.a_mem).length)
        (hj : j < (candidate_nodes c1Persona.a_mem).length), i ≤ j →
        ((candidate_nodes c1Persona.a_mem).get ⟨i, hi⟩).last_accessed ≤
          ((candidate_nodes c1Persona.a_mem).get ⟨j, hj⟩).last_accessed)
    ∧ (∀ (i j : Nat), i < j →
        c1Persona.scratch.recency_decay ^ (j + 1) <
          c1Persona.scratch.recency_decay ^ (i + 1)) :=
  extract_recency_rank c1Persona (by decide) (by decide) (by decide)

/-! ## Claim C3 — the retrieval touch side effect of new_retrieve -/

/-- A key absent from the key list of an association list looks up to
`none`. -/
theorem lookup_none_of_not_mem_keys {α : Type} (m : List (String × α))
    (k : String) (h : k ∉ m.map Prod.fst) : m.lookup k = none := by
  induction m with
  | nil => rfl
  | cons p rest ih =>
    rw [List.lookup]
    have hka : (k == p.1) = false := by
      rw [beq_eq_false_iff_ne]
      intro he
      exact h (by simp [he])
    rw [hka]
    exact ih (fun hm => h (by simp at hm ⊢; exact Or.inr hm))

/-- Touching with an empty id set changes nothing. -/
theorem touch_if_nil (t : Int) (n : ConceptNode) : touch_if [] t n = n := by
  simp [touch_if]

/-- Map form of `touch_if_nil`. -/
theorem map_touch_if_nil (t : Int) (l : List ConceptNode) :
    l.map (touch_if [] t) = l := by
  induction l with
  | nil => rfl
  | cons x xs ih => simp [touch_if_nil, ih]

/-- Pair-map form of `touch_if_nil`. -/
theorem map_pair_touch_if_nil (t : Int) (l : List (String × ConceptNode)) :
    l.map (fun p => (p.1, touch_if [] t p.2)) = l := by
  induction l with
  | nil => rfl
  | cons x xs ih => simp [touch_if_nil, ih]

/-- A single-node touch is a one-id `touch_if`. -/
theorem touch_node_eq_touch_if (i : String) (t : Int) :
    (fun n => touch_node n i t) = touch_if [i] t := by
  funext n
  unfold touch_node touch_if
  by_cases h : n.node_id = i
  · rw [if_pos h, if_pos (by simp [h])]
  · rw [if_neg h, if_neg (by simp [h])]

/-- Touches compose into a touch by the union of the id sets. -/
theorem touch_if_comp (ids1 ids2 : List String) (t : Int) (n : ConceptNode) :
    touch_if ids2 t (touch_if ids1 t n) = touch_if (ids1 ++ ids2) t n := by
  unfold touch_if
  by_cases h1 : n.node_id ∈ ids1
  · rw [if_pos h1]
    by_cases h2 : n.node_id ∈ ids2
    · rw [if_pos (show ({ n with last_accessed := t } : ConceptNode).node_id ∈ ids2 from h2),
        if_pos (List.mem_append.mpr (Or.inl h1))]
    · rw [if_neg (show ({ n with last_accessed := t } : ConceptNode).node_id ∉ ids2 from h2),
        if_pos (List.mem_append.mpr (Or.inl h1))]
  · rw [if_neg h1]
    by_cases h2 : n.node_id ∈ ids2
    · rw [if_pos h2, if_pos (List.mem_append.mpr (Or.inr h2))]
    · rw [if_neg h2, if_neg (by
        intro hm
        rcases List.mem_append.mp hm with hm | hm
        · exact h1 hm
        · exact h2 hm)]

/-- Map form of `touch_if_comp`. -/
theorem map_touch_if_comp (ids1 ids2 : List String) (t : Int)
    (l : List ConceptNode) :
    (l.map (touch_if ids1 t)).map (touch_if ids2 t) =
      l.map (touch_if (ids1 ++ ids2) t) := by
  rw [List.map_map]
  apply List.map_congr_left
  intro n _
  exact touch_if_comp ids1 ids2 t n

/-- Pair-map form of `touch_if_comp`. -/
theorem map_pair_touch_if_comp (ids1 ids2 : List String) (t : Int)
    (l : List (String × ConceptNode)) :
    ((l.map (fun p => (p.1, touch_if ids1 t p.2))).map
        (fun p => (p.1, touch_if ids2 t p.2))) =
      l.map (fun p => (p.1, touch_if (ids1 ++ ids2) t p.2)) := by
  rw [List.map_map]
  apply List.map_congr_left
  intro p _
  show (p.1, touch_if ids2 t (touch_if ids1 t p.2)) = _
  rw [touch_if_comp ids1 ids2 t p.2]

/-- What the final selection loop of `new_retrieve` does: it appends to the
accumulator a batch of nodes all stamped with the current time, and the
memory ends up with exactly those node ids touched everywhere. -/
theorem select_nodes_spec (curr : Int) :
    ∀ (keys : List String) (mem : AssociativeMemory) (acc : List ConceptNode),
      ∃ new : List ConceptNode,
        (select_nodes curr keys mem acc).2 = acc ++ new
        ∧ (∀ nd ∈ new, nd.last_accessed = curr)
        ∧ (select_nodes curr keys mem acc).1.seq_event =
            mem.seq_event.map (touch_if (new.map (fun n => n.node_id)) curr)
        ∧ (select_nodes curr keys mem acc).1.seq_thought =
            mem.seq_thought.map (touch_if (new.map (fun n => n.node_id)) curr)
        ∧ (select_nodes curr keys mem acc).1.seq_chat =
            mem.seq_chat.map (touch_if (new.map (fun n => n.node_id)) curr)
        ∧ (select_nodes curr keys mem acc).1.id_to_node =
            mem.id_to_node.map
              (fun p => (p.1, touch_if (new.map (fun n => n.node_id)) curr p.2)) := by
  intro keys
  induction keys with
  | nil =>
    intro mem acc
    refine ⟨[], by simp [select_nodes], by simp, ?_, ?_, ?_, ?_⟩ <;>
      simp [select_nodes, map_touch_if_nil, map_pair_touch_if_nil]
  | cons key rest ih =>
    intro mem acc
    rcases hk : mem.id_to_node.lookup key with _ | node
    · have hred : select_nodes curr (key :: rest) mem acc =
          select_nodes curr rest mem acc := by
        rw [select_nodes]
        rw [hk]
      rcases ih mem acc with ⟨new, h1, h2, h3, h4, h5, h6⟩
      exact ⟨new, by rw [hred]; exact h1, h2, by rw [hred]; exact h3,
        by rw [hred]; exact h4, by rw [hred]; exact h5, by rw [hred]; exact h6⟩
    · have hred : select_nodes curr (key :: rest) mem acc =
          select_nodes curr rest (touch_memory mem node.node_id curr)
            (acc ++ [{ node with last_accessed := curr }]) := by
        rw [select_nodes]
        rw [hk]
      rcases ih (touch_memory mem node.node_id curr)
          (acc ++ [{ node with last_accessed := curr }]) with
        ⟨new2, h1, h2, h3, h4, h5, h6⟩
      refine ⟨{ node with last_accessed := curr } :: new2, ?_, ?_, ?_, ?_, ?_, ?_⟩
      · rw [hred, h1, List.append_assoc]
        rfl
      · intro nd hnd
        rcases List.mem_cons.mp hnd with rfl | hnd2
        · rfl
        · exact h2 nd hnd2
      · rw [hred, h3]
        show (mem.seq_event.map (fun n => touch_node n node.node_id curr)).map _ = _
        rw [touch_node_eq_touch_if, map_touch_if_comp]
        rfl
      · rw [hred, h4]
        show (mem.seq_thought.map (fun n => touch_node n node.node_id curr)).map _ = _
        rw [touch_node_eq_touch_if, map_touch_if_comp]
        rfl
      · rw [hred, h5]
        show (mem.seq_chat.map (fun n => touch_node n node.node_id curr)).map _ = _
        rw [touch_node_eq_touch_if, map_touch_if_comp]
        rfl
      · rw [hred, h6]
        show (mem.id_to_node.map
            (fun p => (p.1, touch_node p.2 node.node_id curr))).map _ = _
        have hfun : (fun p : String × ConceptNode =>
            (p.1, touch_node p.2 node.node_id curr)) =
            (fun p : String × ConceptNode =>
              (p.1, touch_if [node.node_id] curr p.2)) := by
          funext p
          rw [show touch_node p.2 node.node_id curr =
            touch_if [node.node_id] curr p.2 from
              congrFun (touch_node_eq_touch_if _ _) p.2]
        rw [hfun, map_pair_touch_if_comp]
        rfl

/-- The shape of one focal-point result: `new_retrieve_focal` returns the
persona with the selection loop's memory and the selection loop's nodes. -/
theorem focal_result_shape (persona : Persona) (keys : List String)
    (p2 : Persona) (nodes : List ConceptNode)
    (h : ({ persona with
            a_mem := (select_nodes persona.scratch.curr_time keys
              persona.a_mem []).1 },
          (select_nodes persona.scratch.curr_time keys persona.a_mem []).2) =
        ((p2, nodes) : Persona × List ConceptNode)) :
    p2.scratch = persona.scratch
    ∧ (∀ nd ∈ nodes, nd.last_accessed = persona.scratch.curr_time)
    ∧ p2.a_mem.seq_event = persona.a_mem.seq_event.map
        (touch_if (nodes.map (fun x => x.node_id)) persona.scratch.curr_time)
    ∧ p2.a_mem.seq_thought = persona.a_mem.seq_thought.map
        (touch_if (nodes.map (fun x => x.node_id)) persona.scratch.curr_time)
    ∧ p2.a_mem.seq_chat = persona.a_mem.seq_chat.map
        (touch_if (nodes.map (fun x => x.node_id)) persona.scratch.curr_time)
    ∧ p2.a_mem.id_to_node = persona.a_mem.id_to_node.map
        (fun p => (p.1,
          touch_if (nodes.map (fun x => x.node_id))
            persona.scratch.curr_time p.2)) := by
  rw [Prod.mk.injEq] at h
  obtain ⟨hp, hn⟩ := h
  subst hp
  subst hn
  rcases select_nodes_spec persona.scratch.curr_time keys persona.a_mem []
    with ⟨new, h1, h2, h3, h4, h5, h6⟩
  rw [List.nil_append] at h1
  rw [h1]
  exact ⟨rfl, h2, h3, h4, h5, h6⟩

/-- What one focal-point pass of `new_retrieve` does to the persona: the
scratch is untouched, every returned node carries the current time, and the
memory has exactly the returned node ids touched. -/
theorem new_retrieve_focal_spec (ge : String → List ℚ) (sq : ℚ → ℚ)
    (persona : Persona) (fp : String) (n : Nat) (p2 : Persona)
    (nodes : List ConceptNode)
    (h : new_retrieve_focal ge sq persona fp n = Except.ok (p2, nodes)) :
    p2.scratch = persona.scratch
    ∧ (∀ nd ∈ nodes, nd.last_accessed = persona.scratch.curr_time)
    ∧ p2.a_mem.seq_event = persona.a_mem.seq_event.map
        (touch_if (nodes.map (fun x => x.node_id)) persona.scratch.curr_time)
    ∧ p2.a_mem.seq_thought = persona.a_mem.seq_thought.map
        (touch_if (nodes.map (fun x => x.node_id)) persona.scratch.curr_time)
    ∧ p2.a_mem.seq_chat = persona.a_mem.seq_chat.map
        (touch_if (nodes.map (fun x => x.node_id)) persona.scratch.curr_time)
    ∧ p2.a_mem.id_to_node = persona.a_mem.id_to_node.map
        (fun p => (p.1,
          touch_if (nodes.map (fun x => x.node_id))
            persona.scratch.curr_time p.2)) := by
  unfold new_retrieve_focal at h
  rcases hrel : extract_relevance sq persona.a_mem
      (candidate_nodes persona.a_mem) (ge fp) with e | rel
  · simp [hrel, bind, Except.bind] at h
  · simp only [hrel, bind, Except.bind, pure, Except.pure, Except.ok.injEq] at h
    exact focal_result_shape persona _ p2 nodes h

/-- The constructor rational `halfQ` is the literal `1/2` (the rational
operations of the scoring pipeline do not evaluate inside the kernel, so
the concrete C3 runs are computed by rewriting instead). -/
theorem halfQ_eq : halfQ = 1 / 2 := by
  rw [halfQ, Rat.mk'_eq_divInt, Rat.divInt_eq_div]
  norm_num

/-- First pass over `c3DupMem`: the candidates sorted ascending by
last-accessed time. -/
theorem c3_candidates_first : candidate_nodes c3DupMem = [c3NodeX, c3NodeY] := by
  decide

/-- First pass: the recency scores (the older node "n1" gets exponent 1). -/
theorem c3_recency_first : extract_recency c3DupPersona [c3NodeX, c3NodeY] =
    [("n1", halfQ), ("n2", halfQ ^ 2)] := by decide

/-- First pass: the recency dictionary normalized into `[0,1]`. -/
theorem c3_norm_first : normalize_dict_floats [("n1", (1:ℚ)/2), ("n2", 1/4)] 0 1 =
    [("n1", 1), ("n2", 0)] := by
  norm_num [normalize_dict_floats]

/-- First pass: the relevance scores (no stored embeddings, so every node
scores 0). -/
theorem c3_relevance_first :
    extract_relevance (fun _ => 0) c3DupMem [c3NodeX, c3NodeY] [] =
      Except.ok [("n1", 0), ("n2", 0)] := by rfl

/-- First pass: selecting the top-ranked id "n1" touches node "n1" and
returns it stamped with the current time. -/
theorem c3_select_first : select_nodes 100 ["n1"] c3DupMem [] =
    (c3Mem1, [c3X100]) := by decide

/-- The first focal-point pass of the concrete C3 run: recency ranks the
old node "n1" highest, so it is touched and returned. -/
theorem c3_focal_first :
    new_retrieve_focal (fun _ => []) (fun _ => 0) c3DupPersona "x" 1 =
      Except.ok (c3P1, [c3X100]) := by
  rw [new_retrieve_focal]
  norm_num [show c3DupPersona.a_mem = c3DupMem from rfl,
    show c3DupPersona.scratch.curr_time = 100 from rfl,
    show c3DupPersona.scratch.recency_w = 1 from rfl,
    show c3DupPersona.scratch.relevance_w = 0 from rfl,
    show c3DupPersona.scratch.importance_w = 0 from rfl,
    c3_candidates_first, c3_recency_first, c3_norm_first, c3_relevance_first,
    c3_select_first, halfQ_eq, bind, Except.bind, pure, Except.pure,
    mapSet, List.lookup, top_highest_x_values, stable_sort, sort_insert,
    show (("n1" == "n1") = true) from rfl, show (("n2" == "n2") = true) from rfl,
    show (("n1" == "n2") = false) from rfl, show (("n2" == "n1") = false) from rfl,
    show (("n1" = "n2") = False) from by simp,
    show (("n2" = "n1") = False) from by simp]
  rfl

/-- Second pass over `c3Mem1`: node "n1" now carries the current time, so
the ascending sort puts it last. -/
theorem c3_candidates_second : candidate_nodes c3Mem1 = [c3NodeY, c3X100] := by
  decide

/-- Second pass: the recency scores now rank "n2" highest. -/
theorem c3_recency_second : extract_recency c3P1 [c3NodeY, c3X100] =
    [("n2", halfQ), ("n1", halfQ ^ 2)] := by decide

/-- Second pass: the recency dictionary normalized into `[0,1]`. -/
theorem c3_norm_second : normalize_dict_floats [("n2", (1:ℚ)/2), ("n1", 1/4)] 0 1 =
    [("n2", 1), ("n1", 0)] := by
  norm_num [normalize_dict_floats]

/-- Second pass: the relevance scores are again all 0. -/
theorem c3_relevance_second :
    extract_relevance (fun _ => 0) c3Mem1 [c3NodeY, c3X100] [] =
      Except.ok [("n2", 0), ("n1", 0)] := by rfl

/-- Second pass: selecting the top-ranked id "n2" touches node "n2". -/
theorem c3_select_second : select_nodes 100 ["n2"] c3Mem1 [] =
    (c3Mem2, [c3Y100]) := by decide

/-- The second focal-point pass of the duplicated C3 run: with "n1"
freshly touched, "n2" is now the oldest, so it is touched and returned. -/
theorem c3_focal_second :
    new_retrieve_focal (fun _ => []) (fun _ => 0) c3P1 "x" 1 =
      Except.ok (c3P2, [c3Y100]) := by
  rw [new_retrieve_focal]
  norm_num [show c3P1.a_mem = c3Mem1 from rfl,
    show c3P1.scratch.curr_time = 100 from rfl,
    show c3P1.scratch.recency_w = 1 from rfl,
    show c3P1.scratch.relevance_w = 0 from rfl,
    show c3P1.scratch.importance_w = 0 from rfl,
    c3_candidates_second, c3_recency_second, c3_norm_second,
    c3_relevance_second, c3_select_second, halfQ_eq,
    bind, Except.bind, pure, Except.pure,
    mapSet, List.lookup, top_highest_x_values, stable_sort, sort_insert,
    show (("n1" == "n1") = true) from rfl, show (("n2" == "n2") = true) from rfl,
    show (("n1" == "n2") = false) from rfl, show (("n2" == "n1") = false) from rfl,
    show (("n1" = "n2") = False) from by simp,
    show (("n2" = "n1") = False) from by simp]
  rfl

/-- The concrete C3 run with the single focal point "x": node "n1" is
touched and returned under "x". -/
theorem c3_run_single :
    new_retrieve (fun _ => []) (fun _ => 0) c3DupPersona ["x"] 1 =
      Except.ok (c3P1, [("x", [c3X100])]) := by
  rw [new_retrieve]
  simp only [List.foldlM_cons, List.foldlM_nil, c3_focal_first, bind,
    Except.bind, pure, Except.pure, mapSet, List.lookup, Option.isSome,
    List.nil_append, show ((false = true) = False) from by simp, if_false,
    ite_false]

/-- The concrete C3 run with the duplicated focal points `["x", "x"]`: the
first pass touches and stores node "n1", the second pass touches node "n2"
and its object write `retrieved["x"] = [n2]` overwrites the stored list, so
the touched node "n1" is dropped from the returned dictionary. -/
theorem c3_run_dup :
    new_retrieve (fun _ => []) (fun _ => 0) c3DupPersona ["x", "x"] 1 =
      Except.ok (c3P2, [("x", [c3Y100])]) := by
  rw [new_retrieve]
  simp only [List.foldlM_cons, List.foldlM_nil, c3_focal_first, c3_focal_second,
    bind, Except.bind, pure, Except.pure, mapSet, List.lookup, Option.isSome,
    List.nil_append, show (("x" == "x") = true) from rfl, List.map_cons,
    List.map_nil, show (("x" = "x") = True) from by simp, if_true, ite_true,
    show ((false = true) = False) from by simp, if_false, ite_false]

/-- The accumulator invariant of `new_retrieve`'s focal-point loop, for
pairwise-distinct focal points all fresh for the accumulated dictionary, so
that every object write appends a new binding. -/
theorem new_retrieve_loop_spec (ge : String → List ℚ) (sq : ℚ → ℚ) (n : Nat)
    (curr : Int) :
    ∀ (fps : List String) (st out : Persona × List (String × List ConceptNode)),
      st.1.scratch.curr_time = curr →
      fps.Nodup →
      (∀ fp ∈ fps, fp ∉ st.2.map Prod.fst) →
      List.foldlM
        (fun st focal_pt => do
          let r ← new_retrieve_focal ge sq st.1 focal_pt n
          pure (r.1, mapSet st.2 focal_pt r.2))
        st fps = Except.ok out →
      out.1.scratch = st.1.scratch
      ∧ (∃ tail, out.2 = st.2 ++ tail)
      ∧ ∃ ids : List String,
          (∀ i ∈ ids, ∃ fp nodes nd,
            (fp, nodes) ∈ out.2 ∧ nd ∈ nodes ∧ nd.node_id = i)
          ∧ (∀ fp nodes nd, (fp, nodes) ∈ out.2 → nd ∈ nodes →
              ((fp, nodes) ∈ st.2 ∨
                (nd.last_accessed = curr ∧ nd.node_id ∈ ids)))
          ∧ out.1.a_mem.seq_event = st.1.a_mem.seq_event.map (touch_if ids curr)
          ∧ out.1.a_mem.seq_thought =
              st.1.a_mem.seq_thought.map (touch_if ids curr)
          ∧ out.1.a_mem.seq_chat = st.1.a_mem.seq_chat.map (touch_if ids curr)
          ∧ out.1.a_mem.id_to_node = st.1.a_mem.id_to_node.map
              (fun p => (p.1, touch_if ids curr p.2)) := by
  intro fps
  induction fps with
  | nil =>
    intro st out hcurr _ _ h
    simp only [List.foldlM_nil, pure, Except.pure, Except.ok.injEq] at h
    subst h
    refine ⟨rfl, ⟨[], by simp⟩, [], by simp, ?_, ?_, ?_, ?_, ?_⟩
    · intro fp nodes nd hmem hnd
      exact Or.inl hmem
    · rw [map_touch_if_nil]
    · rw [map_touch_if_nil]
    · rw [map_touch_if_nil]
    · rw [map_pair_touch_if_nil]
  | cons fp rest ih =>
    intro st out hcurr hnodup hfresh h
    simp only [List.foldlM_cons] at h
    rcases hf : new_retrieve_focal ge sq st.1 fp n with e | r
    · rw [hf] at h
      simp only [bind, Except.bind] at h
      exact Except.noConfusion h
    · rw [hf] at h
      simp only [bind, Except.bind, pure, Except.pure] at h
      rcases r with ⟨p2, nodes⟩
      have hfp : fp ∉ st.2.map Prod.fst := hfresh fp (by simp)
      rw [show mapSet st.2 fp nodes = st.2 ++ [(fp, nodes)] from
        mapSet_of_lookup_none st.2 fp nodes
          (lookup_none_of_not_mem_keys st.2 fp hfp)] at h
      have hspec := new_retrieve_focal_spec ge sq st.1 fp n p2 nodes hf
      obtain ⟨hscr, hall, hev, hth, hch, hid⟩ := hspec
      have hcurr2 : p2.scratch.curr_time = curr := by rw [hscr, hcurr]
      have hnodup2 : rest.Nodup := (List.nodup_cons.mp hnodup).2
      have hfpnotin : fp ∉ rest := (List.nodup_cons.mp hnodup).1
      have hfresh2 : ∀ g ∈ rest, g ∉ (st.2 ++ [(fp, nodes)]).map Prod.fst := by
        intro g hg hmem
        rw [List.map_append] at hmem
        rcases List.mem_append.mp hmem with hm | hm
        · exact hfresh g (by simp [hg]) hm
        · simp at hm
          exact hfpnotin (hm ▸ hg)
      have hout := ih (p2, st.2 ++ [(fp, nodes)]) out hcurr2 hnodup2 hfresh2 h
      obtain ⟨ho_scr, ⟨tail2, htail⟩, ids2, hi2a, hi2b, he2, ht2, hc2, hid2⟩ := hout
      rw [hcurr] at hall hev hth hch hid
      refine ⟨by rw [ho_scr]; exact hscr, ?_, ?_⟩
      · exact ⟨(fp, nodes) :: tail2, by rw [htail, List.append_assoc]; rfl⟩
      · refine ⟨nodes.map (fun x => x.node_id) ++ ids2, ?_, ?_, ?_, ?_, ?_, ?_⟩
        · intro i hi
          rcases List.mem_append.mp hi with hi | hi
          · rcases List.mem_map.mp hi with ⟨nd, hnd, hnd2⟩
            refine ⟨fp, nodes, nd, ?_, hnd, hnd2⟩
            rw [htail]
            exact List.mem_append.mpr (Or.inl (by simp))
          · rcases hi2a i hi with ⟨fp2, nodes2, nd2, hm, hn2, hid3⟩
            exact ⟨fp2, nodes2, nd2, hm, hn2, hid3⟩
        · intro fp2 nodes2 nd hmem hnd
          rcases hi2b fp2 nodes2 nd hmem hnd with hmem2 | ⟨hla, hidm⟩
          · rcases List.mem_append.mp hmem2 with hmem3 | hmem3
            · exact Or.inl hmem3
            · have heq : (fp2, nodes2) = (fp, nodes) := by simpa using hmem3
              rw [Prod.mk.injEq] at heq
              refine Or.inr ⟨?_, ?_⟩
              · exact hall nd (heq.2 ▸ hnd)
              · exact List.mem_append.mpr (Or.inl
                  (List.mem_map.mpr ⟨nd, heq.2 ▸ hnd, rfl⟩))
          · exact Or.inr ⟨hla, List.mem_append.mpr (Or.inr hidm)⟩
        · show out.1.a_mem.seq_event = _
          rw [he2, hev, map_touch_if_comp]
        · rw [ht2, hth, map_touch_if_comp]
        · rw [hc2, hch, map_touch_if_comp]
        · rw [hid2, hid, map_pair_touch_if_comp]

/-- C3, amended: after a successful `new_retrieve` call with PAIRWISE
DISTINCT focal points, the scratch is unchanged, every node in any returned
list has `last_accessed` equal to the persona's current simulated time, and
the memory is the original memory with exactly the returned node ids
touched — so any node whose id is not returned is unchanged by the call.
(With a repeated focal point the object write `retrieved[focal_pt] = ...`
overwrites the earlier pass's list, whose nodes were touched but are no
longer returned, so the distinctness hypothesis is necessary.) -/
theorem new_retrieve_touch (ge : String → List ℚ) (sq : ℚ → ℚ)
    (persona : Persona) (fps : List String) (n : Nat) (p2 : Persona)
    (ret : List (String × List ConceptNode))
    (hnodup : fps.Nodup)
    (h : new_retrieve ge sq persona fps n = Except.ok (p2, ret)) :
    p2.scratch = persona.scratch
    ∧ (∀ fp nodes, (fp, nodes) ∈ ret → ∀ nd ∈ nodes,
        nd.last_accessed = persona.scratch.curr_time)
    ∧ ∃ ids : List String,
        (∀ i ∈ ids, ∃ fp nodes nd,
          (fp, nodes) ∈ ret ∧ nd ∈ nodes ∧ nd.node_id = i)
        ∧ (∀ fp nodes nd, (fp, nodes) ∈ ret → nd ∈ nodes → nd.node_id ∈ ids)
        ∧ p2.a_mem.seq_event = persona.a_mem.seq_event.map
            (touch_if ids persona.scratch.curr_time)
        ∧ p2.a_mem.seq_thought = persona.a_mem.seq_thought.map
            (touch_if ids persona.scratch.curr_time)
        ∧ p2.a_mem.seq_chat = persona.a_mem.seq_chat.map
            (touch_if ids persona.scratch.curr_time)
        ∧ p2.a_mem.id_to_node = persona.a_mem.id_to_node.map
            (fun p => (p.1, touch_if ids persona.scratch.curr_time p.2)) := by
  have hloop := new_retrieve_loop_spec ge sq n persona.scratch.curr_time fps
    (persona, []) (p2, ret) rfl hnodup (by simp) h
  obtain ⟨hscr, _, ids, hia, hib, hev, hth, hch, hid⟩ := hloop
  refine ⟨hscr, ?_, ids, hia, ?_, hev, hth, hch, hid⟩
  · intro fp nodes hmem nd hnd
    rcases hib fp nodes nd hmem hnd with hfalse | ⟨hla, _⟩
    · simp at hfalse
    · exact hla
  · intro fp nodes nd hmem hnd
    rcases hib fp nodes nd hmem hnd with hfalse | ⟨_, hidm⟩
    · simp at hfalse
    · exact hidm


/-- C3, counterexample to the unamended claim: with the duplicated focal
points `["x", "x"]` the call succeeds, the node "n1" appears in none of the
returned lists — the second pass's object write overwrote the list that
held it — yet its `last_accessed` was changed by the call from 0 to the
current simulated time 100, so "the last_accessed field of every node not
returned is unchanged" is false. -/
theorem C3_counterexample :
    ∃ p2 ret,
      new_retrieve (fun _ => []) (fun _ => 0) c3DupPersona ["x", "x"] 1 =
        Except.ok (p2, ret)
      ∧ c3DupPersona.scratch.curr_time = 100
      ∧ (∀ p ∈ ret, ∀ nd ∈ p.2, nd.node_id ≠ "n1")
      ∧ (c3DupPersona.a_mem.id_to_node.lookup "n1").map
          (fun nd => nd.last_accessed) = some 0
      ∧ (p2.a_mem.id_to_node.lookup "n1").map
          (fun nd => nd.last_accessed) = some 100 :=
  ⟨c3P2, [("x", [c3Y100])], c3_run_dup, by decide, by decide, by decide,
    by decide⟩

/-- C3, witness: the amended touch facts at the concrete successful call
over the two-node memory with the single focal point "x" — node "n1" is
returned stamped with time 100 and is exactly the id touched. -/
theorem new_retrieve_touch_witness :
    c3P1.scratch = c3DupPersona.scratch
    ∧ (∀ fp nodes, (fp, nodes) ∈ [("x", [c3X100])] → ∀ nd ∈ nodes,
        nd.last_accessed = c3DupPersona.scratch.curr_time)
    ∧ ∃ ids : List String,
        (∀ i ∈ ids, ∃ fp nodes nd,
          (fp, nodes) ∈ [("x", [c3X100])] ∧ nd ∈ nodes ∧ nd.node_id = i)
        ∧ (∀ fp nodes nd, (fp, nodes) ∈ [("x", [c3X100])] → nd ∈ nodes →
            nd.node_id ∈ ids)
        ∧ c3P1.a_mem.seq_event = c3DupPersona.a_mem.seq_event.map
            (touch_if ids c3DupPersona.scratch.curr_time)
        ∧ c3P1.a_mem.seq_thought = c3DupPersona.a_mem.seq_thought.map
            (touch_if ids c3DupPersona.scratch.curr_time)
        ∧ c3P1.a_mem.seq_chat = c3DupPersona.a_mem.seq_chat.map
            (touch_if ids c3DupPersona.scratch.curr_time)
        ∧ c3P1.a_mem.id_to_node = c3DupPersona.a_mem.id_to_node.map
            (fun p => (p.1, touch_if ids c3DupPersona.scratch.curr_time p.2)) :=
  new_retrieve_touch (fun _ => []) (fun _ => 0) c3DupPersona ["x"] 1 c3P1
    [("x", [c3X100])] (by decide) c3_run_single

/-! ## Claim C10 — pathfinder paths connect start to end -/

/-- `List.set`-level description of a row write. -/
theorem getD_set_row (m : Mat) (i : Nat) (row : List Nat) (r : Nat) :
    (m.set i row).getD r [] =
      if i = r ∧ i < m.length then row else m.getD r [] := by
  rw [List.getD_eq_getElem?_getD, List.getElem?_set, List.getD_eq_getElem?_getD]
  by_cases h : i = r
  · subst h
    by_cases hl : i < m.length
    · simp [hl]
    · have : m[i]? = none := List.getElem?_eq_none (by omega)
      simp [hl, this]
  · simp [h]

/-- `setCell` does not change the number of rows. -/
theorem length_setCell (m : Mat) (i j v : Nat) :
    (setCell m i j v).length = m.length := by
  unfold setCell
  exact List.length_set m i _

/-- `setCell` does not change any row length. -/
theorem row_setCell_length (m : Mat) (i j v r : Nat) :
    ((setCell m i j v).getD r []).length = (m.getD r []).length := by
  unfold setCell
  rw [getD_set_row]
  by_cases h : i = r ∧ i < m.length
  · rw [if_pos h, List.length_set]
    rw [h.1]
  · rw [if_neg h]

/-- In-bounds `setCell` reads back as expected. -/
theorem getCell_setCell (m : Mat) (i j v : Nat)
    (hi : i < m.length) (hj : j < (m.getD i []).length) (a b : Nat) :
    getCell (setCell m i j v) a b =
      if a = i ∧ b = j then v else getCell m a b := by
  unfold getCell setCell
  rw [getD_set_row]
  by_cases ha : i = a
  · subst ha
    rw [if_pos ⟨rfl, hi⟩]
    rw [List.getD_eq_getElem?_getD, List.getElem?_set]
    by_cases hb : j = b
    · subst hb
      rw [if_pos rfl, if_pos hj, if_pos ⟨rfl, rfl⟩]
      rfl
    · rw [if_neg hb, if_neg (by intro hc; exact hb hc.2.symm),
        ← List.getD_eq_getElem?_getD]
  · rw [if_neg (by intro hc; exact ha hc.1)]
    rw [if_neg (by intro hc; exact ha hc.1.symm)]

/-- `setCell` preserves rectangularity. -/
theorem rect_setCell (m : Mat) (W i j v : Nat) (h : RectM m W) :
    RectM (setCell m i j v) W := by
  intro r hr
  rw [row_setCell_length]
  exact h r (by rw [← length_setCell m i j v]; exact hr)

/-- A write into a zero cell preserves the backtracking condition of any
cell (the witness neighbour carries a nonzero value, hence is not the
written cell). -/
theorem btcond_setCell (m : Mat) (t1 t2 v ci cj w : Nat)
    (h0 : getCell m t1 t2 = 0) (hw : 1 ≤ w)
    (hi : t1 < m.length) (hj : t2 < (m.getD t1 []).length)
    (hb : BtCond m ci cj w) : BtCond (setCell m t1 t2 v) ci cj w := by
  have hG := getCell_setCell m t1 t2 v hi hj
  have hne : ∀ a b, getCell m a b = w → ¬ (a = t1 ∧ b = t2) := by
    intro a b hv hc
    rw [hc.1, hc.2, h0] at hv
    omega
  unfold BtCond at hb ⊢
  rw [length_setCell, row_setCell_length]
  rcases hb with ⟨h1, h2⟩ | ⟨h1, h2⟩ | ⟨h1, h2⟩ | ⟨h1, h2⟩
  · exact Or.inl ⟨h1, by rw [hG, if_neg (hne _ _ h2)]; exact h2⟩
  · exact Or.inr (Or.inl ⟨h1, by rw [hG, if_neg (hne _ _ h2)]; exact h2⟩)
  · exact Or.inr (Or.inr (Or.inl ⟨h1, by rw [hG, if_neg (hne _ _ h2)]; exact h2⟩))
  · exact Or.inr (Or.inr (Or.inr ⟨h1, by rw [hG, if_neg (hne _ _ h2)]; exact h2⟩))

/-- A wave write (value `k+1` into a zero cell with a `k`-valued neighbour)
preserves the wave invariant. -/
theorem waveinv_setCell (m : Mat) (start : Nat × Nat) (k t1 t2 : Nat)
    (hk : 1 ≤ k) (hinv : WaveInv m start)
    (h0 : getCell m t1 t2 = 0) (hbt : BtCond m t1 t2 k)
    (hi : t1 < m.length) (hj : t2 < (m.getD t1 []).length) :
    WaveInv (setCell m t1 t2 (k+1)) start := by
  obtain ⟨hstart, hones, hbtall⟩ := hinv
  have hG := getCell_setCell m t1 t2 (k+1) hi hj
  refine ⟨?_, ?_, ?_⟩
  · rw [hG]
    rw [if_neg (by
      intro hc
      rw [hc.1, hc.2, h0] at hstart
      omega)]
    exact hstart
  · intro i j h1
    rw [hG i j] at h1
    by_cases hc : i = t1 ∧ j = t2
    · rw [if_pos hc] at h1; omega
    · rw [if_neg hc] at h1; exact hones i j h1
  · intro i j h2
    rw [hG i j] at h2 ⊢
    by_cases hc : i = t1 ∧ j = t2
    · rw [if_pos hc] at h2 ⊢
      have : k + 1 - 1 = k := by omega
      rw [this, hc.1, hc.2]
      exact btcond_setCell m t1 t2 (k+1) t1 t2 k h0 hk hi hj hbt
    · rw [if_neg hc] at h2 ⊢
      exact btcond_setCell m t1 t2 (k+1) i j _ h0 (by omega) hi hj
        (hbtall i j h2)

/-- A guarded wave write preserves the bundled invariant, provided the guard
implies the backtracking condition and in-bounds coordinates for the written
cell. -/
theorem minv_write (H W : Nat) (start : Nat × Nat) (k : Nat) (m : Mat)
    (t1 t2 : Nat) (c q : Prop) [Decidable c] [Decidable q] (hk : 1 ≤ k)
    (hm : MInv H W start m)
    (hcond : q → getCell m t1 t2 = 0 →
      (BtCond m t1 t2 k ∧ t1 < H ∧ t2 < W)) :
    MInv H W start
      (if q ∧ getCell m t1 t2 = 0 ∧ c then setCell m t1 t2 (k+1) else m) := by
  by_cases hq : q ∧ getCell m t1 t2 = 0 ∧ c
  · rw [if_pos hq]
    obtain ⟨hb, h1, h2⟩ := hcond hq.1 hq.2.1
    obtain ⟨hw, hr, hl⟩ := hm
    have hi : t1 < m.length := by rw [hl]; exact h1
    have hj : t2 < (m.getD t1 []).length := by rw [hr t1 hi]; exact h2
    exact ⟨waveinv_setCell m start k t1 t2 hk hw hq.2.1 hb hi hj,
      rect_setCell m W t1 t2 (k+1) hr, by rw [length_setCell, hl]⟩
  · rw [if_neg hq]; exact hm

/-- Reading an untouched cell through a guarded write. -/
theorem getCell_ite_setCell_ne (m : Mat) (t1 t2 v a b : Nat)
    (Q : Prop) [Decidable Q]
    (hb : Q → t1 < m.length ∧ t2 < (m.getD t1 []).length)
    (hne : Q → ¬ (a = t1 ∧ b = t2)) :
    getCell (if Q then setCell m t1 t2 v else m) a b = getCell m a b := by
  by_cases hq : Q
  · rw [if_pos hq, getCell_setCell m t1 t2 v (hb hq).1 (hb hq).2,
      if_neg (hne hq)]
  · rw [if_neg hq]

/-- Row-count of a guarded write. -/
theorem length_ite_setCell (m : Mat) (t1 t2 v : Nat) (Q : Prop) [Decidable Q] :
    (if Q then setCell m t1 t2 v else m).length = m.length := by
  by_cases hq : Q
  · rw [if_pos hq, length_setCell]
  · rw [if_neg hq]

/-- Row lengths of a guarded write. -/
theorem row_ite_setCell (m : Mat) (t1 t2 v r : Nat) (Q : Prop) [Decidable Q] :
    ((if Q then setCell m t1 t2 v else m).getD r []).length =
      (m.getD r []).length := by
  by_cases hq : Q
  · rw [if_pos hq, row_setCell_length]
  · rw [if_neg hq]

/-- One cell of a `make_step` scan preserves the bundled invariant. -/
theorem minv_make_step_cell (aM : Mat) (H W : Nat) (start : Nat × Nat)
    (k i j : Nat) (m : Mat) (hk : 1 ≤ k) (hi : i < H) (hj : j < W)
    (hm : MInv H W start m) :
    MInv H W start (make_step_cell aM k m i j) := by
  unfold make_step_cell
  by_cases hcell : getCell m i j = k
  case neg => rw [if_neg hcell]; exact hm
  case pos =>
    rw [if_pos hcell]
    simp only []
    set m1 := if 0 < i ∧ getCell m (i-1) j = 0 ∧ getCell aM (i-1) j = 0 then
      setCell m (i-1) j (k+1) else m with hdef1
    have h1 : MInv H W start m1 := by
      rw [hdef1]
      refine minv_write H W start k m (i-1) j _ _ hk hm ?_
      intro hq h0
      refine ⟨Or.inr (Or.inr (Or.inl ⟨?_, ?_⟩)), by omega, hj⟩
      · rw [hm.2.2]; omega
      · have e : i - 1 + 1 = i := by omega
        rw [e]; exact hcell
    have hv1 : getCell m1 i j = k := by
      rw [hdef1]
      rw [getCell_ite_setCell_ne m (i-1) j (k+1) i j _ ?_ ?_]
      · exact hcell
      · intro hq
        exact ⟨by rw [hm.2.2]; omega,
          by rw [hm.2.1 (i-1) (by rw [hm.2.2]; omega)]; exact hj⟩
      · intro hq hc
        omega
    set m2 := if 0 < j ∧ getCell m1 i (j-1) = 0 ∧ getCell aM i (j-1) = 0 then
      setCell m1 i (j-1) (k+1) else m1 with hdef2
    have h2 : MInv H W start m2 := by
      rw [hdef2]
      refine minv_write H W start k m1 i (j-1) _ _ hk h1 ?_
      intro hq h0
      refine ⟨Or.inr (Or.inr (Or.inr ⟨?_, ?_⟩)), hi, by omega⟩
      · rw [h1.2.1 i (by rw [h1.2.2]; exact hi)]; omega
      · have e : j - 1 + 1 = j := by omega
        rw [e]; exact hv1
    have hv2 : getCell m2 i j = k := by
      rw [hdef2]
      rw [getCell_ite_setCell_ne m1 i (j-1) (k+1) i j _ ?_ ?_]
      · exact hv1
      · intro hq
        exact ⟨by rw [h1.2.2]; exact hi,
          by rw [h1.2.1 i (by rw [h1.2.2]; exact hi)]; omega⟩
      · intro hq hc
        omega
    set m3 := if i < m2.length - 1 ∧ getCell m2 (i+1) j = 0 ∧ getCell aM (i+1) j = 0 then
      setCell m2 (i+1) j (k+1) else m2 with hdef3
    have h3 : MInv H W start m3 := by
      rw [hdef3]
      refine minv_write H W start k m2 (i+1) j _ _ hk h2 ?_
      intro hq h0
      have hb : i + 1 < H := by
        have := h2.2.2
        omega
      refine ⟨Or.inl ⟨by omega, ?_⟩, hb, hj⟩
      have e : i + 1 - 1 = i := by omega
      rw [e]; exact hv2
    have hv3 : getCell m3 i j = k := by
      rw [hdef3]
      rw [getCell_ite_setCell_ne m2 (i+1) j (k+1) i j _ ?_ ?_]
      · exact hv2
      · intro hq
        refine ⟨by omega, ?_⟩
        rw [h2.2.1 (i+1) (by omega)]
        exact hj
      · intro hq hc
        omega
    refine minv_write H W start k m3 i (j+1) _ _ hk h3 ?_
    intro hq h0
    have hb : j + 1 < W := by
      have := h3.2.1 i (by rw [h3.2.2]; exact hi)
      omega
    refine ⟨Or.inr (Or.inl ⟨by omega, ?_⟩), hi, hb⟩
    have e : j + 1 - 1 = j := by omega
    rw [e]; exact hv3

/-- Fold invariance with membership information. -/
theorem foldl_inv_mem {α β : Type} (P : α → Prop) (f : α → β → α) :
    ∀ (l : List β) (a : α), P a →
      (∀ (x : α) (b : β), b ∈ l → P x → P (f x b)) → P (l.foldl f a) := by
  intro l
  induction l with
  | nil => intro a ha _; exact ha
  | cons b bs ih =>
    intro a ha hstep
    simp only [List.foldl_cons]
    exact ih (f a b) (hstep a b (by simp) ha)
      (fun x c hc hx => hstep x c (by simp [hc]) hx)

/-- One full expansion round preserves the bundled invariant. -/
theorem minv_make_step (aM : Mat) (H W : Nat) (start : Nat × Nat) (k : Nat)
    (m : Mat) (hk : 1 ≤ k) (hm : MInv H W start m) :
    MInv H W start (make_step aM k m) := by
  unfold make_step
  refine foldl_inv_mem (MInv H W start) _ (List.range m.length) m hm ?_
  intro x i hi hx
  refine foldl_inv_mem (MInv H W start) _
    (List.range ((m.getD i []).length)) x hx ?_
  intro y j hjm hy
  have hiH : i < H := by
    rw [← hm.2.2]; exact List.mem_range.mp hi
  have hjW : j < W := by
    rw [← hm.2.1 i (by rw [hm.2.2]; exact hiH)]
    exact List.mem_range.mp hjm
  exact minv_make_step_cell aM H W start k i j y hk hiH hjW hy

/-- The wave loop preserves the bundled invariant. -/
theorem minv_wave_loop (aM : Mat) (H W : Nat) (start : Nat × Nat)
    (ei ej : Nat) :
    ∀ (fuel k : Nat) (m : Mat), MInv H W start m →
      MInv H W start (wave_loop aM ei ej fuel k m) := by
  intro fuel
  induction fuel with
  | zero =>
    intro k m hm
    rw [wave_loop]
    by_cases hc : getCell m ei ej ≠ 0
    · rw [if_pos hc]; exact hm
    · rw [if_neg hc]
      exact minv_make_step aM H W start (k+1) m (by omega) hm
  | succ f ih =>
    intro k m hm
    rw [wave_loop]
    by_cases hc : getCell m ei ej ≠ 0
    · rw [if_pos hc]; exact hm
    · rw [if_neg hc]
      exact ih (k+1) (make_step aM (k+1) m)
        (minv_make_step aM H W start (k+1) m (by omega) hm)

/-- Adjacency is symmetric. -/
theorem adj_symm : ∀ (p q : Nat × Nat), Adj p q → Adj q p := by
  intro p q h
  obtain ⟨a, b⟩ := p
  obtain ⟨c, d⟩ := q
  unfold Adj at h ⊢
  simp only [] at h ⊢
  omega

/-- Adjacency is invariant under the (x, y) ↔ (row, col) swap. -/
theorem adj_swap : ∀ (p q : Nat × Nat), Adj p q → Adj (p.2, p.1) (q.2, q.1) := by
  intro p q h
  obtain ⟨a, b⟩ := p
  obtain ⟨c, d⟩ := q
  unfold Adj at h ⊢
  simp only [] at h ⊢
  omega

/-- All-zero rows read as zero. -/
theorem getD_map_zero (row : List Nat) (j : Nat) :
    (row.map (fun _ => (0 : Nat))).getD j 0 = 0 := by
  rw [List.getD_eq_getElem?_getD, List.getElem?_map]
  cases row[j]? <;> rfl

/-- The all-zero matrix reads as zero everywhere. -/
theorem getCell_zeros (g : Mat) (i j : Nat) :
    getCell (g.map (fun row => row.map (fun _ => 0))) i j = 0 := by
  have h : (g.map (fun row => row.map (fun _ => (0 : Nat)))).getD i [] =
      (g.getD i []).map (fun _ => 0) := by
    rw [List.getD_eq_getElem?_getD, List.getElem?_map,
      List.getD_eq_getElem?_getD]
    cases g[i]? <;> rfl
  unfold getCell
  rw [h]
  exact getD_map_zero _ j

/-- Row lengths of the all-zero matrix built over the collision maze. -/
theorem zeros_row_len (grid : List (List Nat)) (c W : Nat) (r : Nat)
    (hrect : ∀ row ∈ grid, row.length = W) (hr : r < grid.length) :
    (((to_collision grid c).map (fun row => row.map (fun _ => 0))).getD r []).length
      = W := by
  unfold to_collision
  rw [List.map_map, List.getD_eq_getElem?_getD,
    List.getElem?_eq_getElem (by simpa using hr)]
  simp only [Option.getD_some, List.getElem_map, Function.comp_apply,
    List.length_map]
  exact hrect grid[r] (List.getElem_mem hr)

/-- The initial matrix (zeros with 1 at the start cell) satisfies the
bundled invariant. -/
theorem minv_init (grid : List (List Nat)) (c W : Nat) (start : Nat × Nat)
    (hrect : ∀ row ∈ grid, row.length = W)
    (hs1 : start.1 < grid.length) (hs2 : start.2 < W) :
    MInv grid.length W start (init_m (to_collision grid c) start) := by
  unfold init_m
  have hzl : ((to_collision grid c).map
      (fun row => row.map (fun _ => 0))).length = grid.length := by
    unfold to_collision
    simp
  have hzr : ∀ r, r < grid.length →
      (((to_collision grid c).map (fun row => row.map (fun _ => 0))).getD r []).length
        = W := fun r hr => zeros_row_len grid c W r hrect hr
  have hi : start.1 < ((to_collision grid c).map
      (fun row => row.map (fun _ => 0))).length := by rw [hzl]; exact hs1
  have hj : start.2 < (((to_collision grid c).map
      (fun row => row.map (fun _ => 0))).getD start.1 []).length := by
    rw [hzr start.1 hs1]; exact hs2
  have hG := getCell_setCell _ start.1 start.2 1 hi hj
  refine ⟨⟨?_, ?_, ?_⟩, ?_, ?_⟩
  · rw [hG, if_pos ⟨rfl, rfl⟩]
  · intro i j h1
    rw [hG] at h1
    by_cases hc : i = start.1 ∧ j = start.2
    · exact hc
    · rw [if_neg hc, getCell_zeros] at h1
      omega
  · intro i j h2
    rw [hG] at h2
    by_cases hc : i = start.1 ∧ j = start.2
    · rw [if_pos hc] at h2; omega
    · rw [if_neg hc, getCell_zeros] at h2; omega
  · intro r hr
    rw [row_setCell_length]
    exact hzr r (by rw [← hzl]; rw [length_setCell] at hr; exact hr)
  · rw [length_setCell, hzl]

/-- Backtracking from a cell at distance `k+1` in an invariant-satisfying
matrix appends a unit-step chain that ends at the start cell. -/
theorem backtrack_spec (m : Mat) (start : Nat × Nat) (hinv : WaveInv m start) :
    ∀ (k ci cj : Nat) (acc : List (Nat × Nat)),
      getCell m ci cj = k + 1 →
      ∃ l : List (Nat × Nat),
        backtrack m (k+1) (ci, cj) acc = acc ++ l
        ∧ List.Chain' Adj ((ci, cj) :: l)
        ∧ ((ci, cj) :: l).getLast? = some start := by
  intro k
  induction k with
  | zero =>
    intro ci cj acc hv
    refine ⟨[], by simp [backtrack], List.chain'_singleton _, ?_⟩
    have hcs := hinv.2.1 ci cj hv
    rw [hcs.1, hcs.2]
    rfl
  | succ n ih =>
    intro ci cj acc hv
    have hbt := hinv.2.2 ci cj (by rw [hv]; omega)
    rw [hv] at hbt
    have hbt2 : BtCond m ci cj (n + 1) := by
      have e : n + 1 + 1 - 1 = n + 1 := by omega
      rw [e] at hbt
      exact hbt
    rw [backtrack]
    by_cases g1 : 0 < ci ∧ getCell m (ci-1) cj = n+1
    · rw [if_pos g1]
      rcases ih (ci-1) cj (acc ++ [(ci-1, cj)]) g1.2 with ⟨l, hl1, hl2, hl3⟩
      refine ⟨(ci-1, cj) :: l, ?_, ?_, ?_⟩
      · rw [hl1, List.append_assoc]; rfl
      · rw [List.chain'_cons]
        refine ⟨?_, hl2⟩
        have hc1 : 0 < ci := g1.1
        exact Or.inr ⟨rfl, Or.inl (by omega)⟩
      · rw [List.getLast?_cons_cons]; exact hl3
    · rw [if_neg g1]
      by_cases g2 : 0 < cj ∧ getCell m ci (cj-1) = n+1
      · rw [if_pos g2]
        rcases ih ci (cj-1) (acc ++ [(ci, cj-1)]) g2.2 with ⟨l, hl1, hl2, hl3⟩
        refine ⟨(ci, cj-1) :: l, ?_, ?_, ?_⟩
        · rw [hl1, List.append_assoc]; rfl
        · rw [List.chain'_cons]
          refine ⟨?_, hl2⟩
          have hc2 : 0 < cj := g2.1
          exact Or.inl ⟨rfl, Or.inl (by omega)⟩
        · rw [List.getLast?_cons_cons]; exact hl3
      · rw [if_neg g2]
        by_cases g3 : ci < m.length - 1 ∧ getCell m (ci+1) cj = n+1
        · rw [if_pos g3]
          rcases ih (ci+1) cj (acc ++ [(ci+1, cj)]) g3.2 with ⟨l, hl1, hl2, hl3⟩
          refine ⟨(ci+1, cj) :: l, ?_, ?_, ?_⟩
          · rw [hl1, List.append_assoc]; rfl
          · rw [List.chain'_cons]
            exact ⟨Or.inr ⟨rfl, Or.inr rfl⟩, hl2⟩
          · rw [List.getLast?_cons_cons]; exact hl3
        · rw [if_neg g3]
          by_cases g4 : cj < (m.getD ci []).length - 1 ∧ getCell m ci (cj+1) = n+1
          · rw [if_pos g4]
            rcases ih ci (cj+1) (acc ++ [(ci, cj+1)]) g4.2 with ⟨l, hl1, hl2, hl3⟩
            refine ⟨(ci, cj+1) :: l, ?_, ?_, ?_⟩
            · rw [hl1, List.append_assoc]; rfl
            · rw [List.chain'_cons]
              exact ⟨Or.inl ⟨rfl, Or.inr rfl⟩, hl2⟩
            · rw [List.getLast?_cons_cons]; exact hl3
          · exfalso
            rcases hbt2 with h | h | h | h
            · exact g1 h
            · exact g2 h
            · exact g3 h
            · exact g4 h

/-- The wave matrix satisfies the bundled invariant. -/
theorem minv_wave_matrix (grid : List (List Nat)) (c W : Nat) (s e : Nat × Nat)
    (hrect : ∀ row ∈ grid, row.length = W)
    (hs1 : s.1 < grid.length) (hs2 : s.2 < W) :
    MInv grid.length W s (wave_matrix grid s e c) := by
  unfold wave_matrix
  exact minv_wave_loop (to_collision grid c) grid.length W s e.1 e.2 150 0 _
    (minv_init grid c W s hrect hs1 hs2)

/-- Connectivity of `path_finder_v2` in internal (row, col) coordinates. -/
theorem path_finder_v2_connects (grid : List (List Nat)) (c W : Nat)
    (s e : Nat × Nat) (hrect : ∀ row ∈ grid, row.length = W)
    (hs1 : s.1 < grid.length) (hs2 : s.2 < W)
    (hmark : getCell (wave_matrix grid s e c) e.1 e.2 ≠ 0) :
    (path_finder_v2 grid s e c).head? = some s
    ∧ (path_finder_v2 grid s e c).getLast? = some e
    ∧ List.Chain' Adj (path_finder_v2 grid s e c) := by
  obtain ⟨s1, s2⟩ := s
  obtain ⟨e1, e2⟩ := e
  have hinv := (minv_wave_matrix grid c W (s1, s2) (e1, e2) hrect hs1 hs2).1
  have hmark2 : getCell (wave_matrix grid (s1, s2) (e1, e2) c) e1 e2 ≠ 0 :=
    hmark
  obtain ⟨kk, hkk⟩ : ∃ kk,
      getCell (wave_matrix grid (s1, s2) (e1, e2) c) e1 e2 = kk + 1 :=
    ⟨getCell (wave_matrix grid (s1, s2) (e1, e2) c) e1 e2 - 1, by omega⟩
  rcases backtrack_spec (wave_matrix grid (s1, s2) (e1, e2) c) (s1, s2) hinv
      kk e1 e2 [(e1, e2)] hkk with ⟨l, hl1, hl2, hl3⟩
  unfold path_finder_v2
  simp only []
  rw [show getCell (wave_matrix grid (s1, s2) (e1, e2) c) (e1, e2).1 (e1, e2).2
      = kk + 1 from hkk]
  rw [hl1]
  refine ⟨?_, ?_, ?_⟩
  · rw [List.head?_reverse]
    exact hl3
  · rw [List.getLast?_reverse]
    rfl
  · rw [List.chain'_reverse]
    exact List.Chain'.imp (fun a b h => adj_symm a b h) hl2

/-- C10: whenever the wave propagation marks the end cell (within its
iteration cap), the list `path_finder` returns begins with the start
coordinate, ends with the end coordinate — both in (x, y) order — and every
pair of consecutive coordinates differs by exactly 1 in exactly one of the
two components. -/
theorem path_finder_connects (grid : List (List Nat)) (c W : Nat)
    (s e : Nat × Nat) (hrect : ∀ row ∈ grid, row.length = W)
    (hs1 : s.2 < grid.length) (hs2 : s.1 < W)
    (hmark : getCell (wave_matrix grid (s.2, s.1) (e.2, e.1) c) e.2 e.1 ≠ 0) :
    (path_finder grid s e c).head? = some s
    ∧ (path_finder grid s e c).getLast? = some e
    ∧ List.Chain' Adj (path_finder grid s e c) := by
  obtain ⟨sx, sy⟩ := s
  obtain ⟨ex, ey⟩ := e
  rcases path_finder_v2_connects grid c W (sy, sx) (ey, ex) hrect hs1 hs2 hmark
    with ⟨h1, h2, h3⟩
  unfold path_finder
  refine ⟨?_, ?_, ?_⟩
  · rw [List.head?_map, h1]
    rfl
  · rw [List.getLast?_map, h2]
    rfl
  · rw [List.chain'_map]
    exact List.Chain'.imp (fun a b h => adj_swap a b h) h3

/-- C10, witness: on the obstacle-free 2×2 grid the wave marks the end and
the returned path runs from `(0,0)` to `(1,1)` in unit steps. -/
theorem path_finder_connects_witness :
    (path_finder [[0, 0], [0, 0]] (0, 0) (1, 1) 1).head? = some (0, 0)
    ∧ (path_finder [[0, 0], [0, 0]] (0, 0) (1, 1) 1).getLast? = some (1, 1)
    ∧ List.Chain' Adj (path_finder [[0, 0], [0, 0]] (0, 0) (1, 1) 1) :=
  path_finder_connects [[0, 0], [0, 0]] 1 2 (0, 0) (1, 1)
    (by decide) (by decide) (by decide) (by decide)

end GenAgents
